import Mathlib

/-!
Shallow embedding of the ECG biometric-encryption core
(`src/brute_force_attack_comparison.py` and the cipher methods of
`src/ecg_gui_all.py`), together with proofs about the claims of the
specification.

Numeric model: the Python code computes with IEEE floats; here all cipher
arithmetic is embedded over `ℚ` (exact arithmetic), and quantities that are
irrational in exact arithmetic (standard deviation, Pearson correlation)
are embedded over `ℝ`.  `np.random.random` draws are modelled as an explicit
list argument.  `uint8` casts of in-range values are floor/truncation
composed with reduction mod 2^8.
-/

namespace ECG

/-- Logistic-map chaotic sequence: iterates of `x := r * x * (1 - x)`,
excluding the seed itself, as in `logistic_map` (both source files). -/
def logisticIter (r : ℚ) : ℕ → ℚ → List ℚ
  | 0, _ => []
  | n + 1, x =>
    let x' := r * x * (1 - x)
    x' :: logisticIter r n x'

/-- `logistic_map(x0, r, n)` from `brute_force_attack_comparison.py`
(the GUI's `logistic_map` computes the identical sequence). -/
def logistic_map (x0 r : ℚ) (n : ℕ) : List ℚ :=
  logisticIter r n x0

/-- `np.min` of a signal (signals are nonempty in every use). -/
def listMin : List ℚ → ℚ
  | [] => 0
  | a :: l => l.foldl min a

/-- `np.max` of a signal. -/
def listMax : List ℚ → ℚ
  | [] => 0
  | a :: l => l.foldl max a

/-- `astype(np.uint8)` applied to a nonnegative float value: truncation
toward zero (= floor on the nonnegative values arising here), reduced
mod 2^8. -/
def toByte (q : ℚ) : ℕ :=
  (⌊q⌋).toNat % 256

/-- The shared scaling sub-step of every encrypt:
`((signal - min) / (max - min) * 255).astype(np.uint8)` when `max > min`,
else `np.zeros_like(signal, dtype=np.uint8)`. -/
def scale_signal (signal : List ℚ) : List ℕ :=
  let signal_min := listMin signal
  let signal_max := listMax signal
  if signal_min < signal_max then
    signal.map (fun s => toByte ((s - signal_min) / (signal_max - signal_min) * 255))
  else
    List.replicate signal.length 0

/-- `np.floor(chaotic_seq * 255).astype(np.uint8)`. -/
def xorMask (seq : List ℚ) : List ℕ :=
  seq.map (fun x => toByte (x * 255))

/-- The comparison used by `np.argsort`: order indices by the values they
point at, ties broken by index position (stability). -/
def argsortRel {α : Type} [LinearOrder α] [Inhabited α] (l : List α) (i j : ℕ) : Prop :=
  l.getD i default < l.getD j default ∨
    (l.getD i default = l.getD j default ∧ i ≤ j)

instance argsortRelDecidable {α : Type} [LinearOrder α] [Inhabited α] (l : List α) :
    DecidableRel (argsortRel l) := fun i j => by
  unfold argsortRel
  infer_instance

instance argsortRelTotal {α : Type} [LinearOrder α] [Inhabited α] (l : List α) :
    IsTotal ℕ (argsortRel l) := by
  constructor
  intro i j
  rcases lt_trichotomy (l.getD i default) (l.getD j default) with h | h | h
  · exact Or.inl (Or.inl h)
  · rcases le_total i j with hij | hij
    · exact Or.inl (Or.inr ⟨h, hij⟩)
    · exact Or.inr (Or.inr ⟨h.symm, hij⟩)
  · exact Or.inr (Or.inl h)

instance argsortRelTrans {α : Type} [LinearOrder α] [Inhabited α] (l : List α) :
    IsTrans ℕ (argsortRel l) := by
  constructor
  intro a b c hab hbc
  rcases hab with h1 | ⟨h1, h1'⟩ <;> rcases hbc with h2 | ⟨h2, h2'⟩
  · exact Or.inl (h1.trans h2)
  · exact Or.inl (h2 ▸ h1)
  · exact Or.inl (h1 ▸ h2)
  · exact Or.inr ⟨h1.trans h2, le_trans h1' h2'⟩

/-- `np.argsort`, modelled as a stable sort of the index range by value
(ties broken by index; the chaotic values have no ties in the concrete
inputs used below, and every tie-break yields the same permutation facts). -/
def argsort {α : Type} [LinearOrder α] [Inhabited α] (l : List α) : List ℕ :=
  List.insertionSort (argsortRel l) (List.range l.length)

/-- NumPy fancy indexing `l[idx]`. -/
def npIndex {α : Type} [Inhabited α] (l : List α) (idx : List ℕ) : List α :=
  idx.map (fun i => l.getD i default)

/-- `classical_chaotic_encrypt(signal, r, x0)`: returns
`(encrypted, (signal_min, signal_max))`. -/
def classical_chaotic_encrypt (signal : List ℚ) (r x0 : ℚ) : List ℕ × ℚ × ℚ :=
  let n := signal.length
  let chaotic_seq := logistic_map x0 r n
  let scaled_signal := scale_signal signal
  let xor_mask := xorMask chaotic_seq
  (List.zipWith (· ^^^ ·) scaled_signal xor_mask, (listMin signal, listMax signal))

/-- `classical_chaotic_decrypt(encrypted_signal, r, x0, signal_range)`. -/
def classical_chaotic_decrypt (encrypted_signal : List ℕ) (r x0 : ℚ)
    (signal_range : ℚ × ℚ) : List ℚ :=
  let n := encrypted_signal.length
  let xor_mask := xorMask (logistic_map x0 r n)
  let decrypted_scaled := List.zipWith (· ^^^ ·) encrypted_signal xor_mask
  decrypted_scaled.map
    (fun (b : ℕ) => (b : ℚ) / 255 * (signal_range.2 - signal_range.1) + signal_range.1)

/-- `biometric_encrypt(signal, r, x0)` with the key passed explicitly (the
`r is None` branch derives it via `extract_biometric_key` instead); returns
the source's full tuple
`(encrypted, permutation, xor_mask, (signal_min, signal_max), r, x0)`. -/
def biometric_encrypt (signal : List ℚ) (r x0 : ℚ) :
    List ℕ × List ℕ × List ℕ × (ℚ × ℚ) × ℚ × ℚ :=
  let n := signal.length
  let chaotic_seq := logistic_map x0 r n
  let scaled_signal := scale_signal signal
  let xor_mask := xorMask chaotic_seq
  let permutation := argsort chaotic_seq
  let permuted_signal := npIndex scaled_signal permutation
  (List.zipWith (· ^^^ ·) permuted_signal xor_mask, permutation, xor_mask,
    (listMin signal, listMax signal), r, x0)

/-- `biometric_decrypt(encrypted_signal, permutation, xor_mask, signal_range)`. -/
def biometric_decrypt (encrypted_signal permutation xor_mask : List ℕ)
    (signal_range : ℚ × ℚ) : List ℚ :=
  let xor_reversed := List.zipWith (· ^^^ ·) encrypted_signal xor_mask
  let inverse_perm := argsort permutation
  let decrypted_scaled := npIndex xor_reversed inverse_perm
  decrypted_scaled.map
    (fun (b : ℕ) => (b : ℚ) / 255 * (signal_range.2 - signal_range.1) + signal_range.1)

/-- `ECGEncryptionGUI.chaotic_encrypt(signal, r, x0)` from `ecg_gui_all.py`:
the additive floating-point blending variant
(`encrypted = permuted_signal + chaotic_seq`). -/
def gui_chaotic_encrypt (signal : List ℚ) (r x0 : ℚ) : List ℚ × List ℕ :=
  let n := signal.length
  let chaotic_seq := logistic_map x0 r n
  let perm_indices := argsort chaotic_seq
  let permuted_signal := npIndex signal perm_indices
  (List.zipWith (· + ·) permuted_signal chaotic_seq, perm_indices)

/-- `ECGEncryptionGUI.chaotic_decrypt(encrypted_signal, r, x0, perm_indices)`
from `ecg_gui_all.py`. -/
def gui_chaotic_decrypt (encrypted_signal : List ℚ) (r x0 : ℚ)
    (perm_indices : List ℕ) : List ℚ :=
  let n := encrypted_signal.length
  let chaotic_seq := logistic_map x0 r n
  let decrypted := List.zipWith (· - ·) encrypted_signal chaotic_seq
  let inverse_perm := argsort perm_indices
  npIndex decrypted inverse_perm

/-- `ECGEncryptionGUI.ml_enhanced_encrypt(signal, r, x0, alpha, eta)` from
`ecg_gui_all.py`.  The call `np.random.random(n)` draws fresh randomness from
the process-global generator on every call; it is modelled by the explicit
argument `randomDraw`, and every statement about this function quantifies
only over draws the generator can actually produce — `n` samples in `[0, 1)`,
captured by `isRandomDraw` below.  `np.sin` is `Real.sin`. -/
noncomputable def gui_ml_enhanced_encrypt (signal : List ℚ) (r x0 alpha eta : ℚ)
    (randomDraw : List ℚ) : List ℝ × List ℕ :=
  let n := signal.length
  let chaotic_seq := logistic_map x0 r n
  let ml_weights := List.zipWith (fun c z => alpha * c + eta * z) chaotic_seq randomDraw
  let perm_indices := argsort ml_weights
  let permuted_signal := npIndex signal perm_indices
  let adaptive_seq := (List.range n).map
    (fun i => (chaotic_seq.getD i 0 : ℝ) * (1 + (alpha : ℝ) * Real.sin ((eta : ℝ) * i)))
  (List.zipWith (fun p a => (p : ℚ) + a) permuted_signal adaptive_seq, perm_indices)

/-- A value `np.random.random(n)` can actually return: `n` samples, each in
the half-open unit interval `[0, 1)`. -/
def isRandomDraw (n : ℕ) (draw : List ℚ) : Prop :=
  draw.length = n ∧ ∀ z ∈ draw, 0 ≤ z ∧ z < 1

/-- `np.mean` of a signal. -/
def mean (l : List ℚ) : ℚ :=
  l.sum / l.length

/-- The mean squared deviation (the radicand of `np.std`, which uses the
population convention `ddof = 0`). -/
def meanSqDev (l : List ℚ) : ℚ :=
  (l.map (fun x => (x - mean l) ^ 2)).sum / l.length

/-- `np.std`: square root of the mean squared deviation. -/
noncomputable def listStd (l : List ℚ) : ℝ :=
  Real.sqrt (meanSqDev l)

/-- Python's float `%` operator (sign follows the divisor):
`x % m = x - m * floor(x / m)`. -/
noncomputable def fmodR (x m : ℝ) : ℝ :=
  x - m * ⌊x / m⌋

/-- `extract_biometric_key(ecg_signal)`:
`r = 3.6 + (std % 0.4)`, `x0 = 0.1 + (mean % 0.8)`. -/
noncomputable def extract_biometric_key (ecg_signal : List ℚ) : ℝ × ℝ :=
  let mean_val : ℝ := (mean ecg_signal : ℝ)
  let std_val : ℝ := listStd ecg_signal
  (36 / 10 + fmodR std_val (4 / 10), 1 / 10 + fmodR mean_val (8 / 10))

/-- Sum of squared deviations of a list (`∑ (x - mean)²`, without the `1/(n-1)`
normalisation, which cancels in the Pearson correlation ratio). -/
def sqDev (l : List ℚ) : ℚ :=
  (l.map (fun x => (x - mean l) ^ 2)).sum

/-- Sum of products of centred deviations of two equal-length lists. -/
def covSum (x y : List ℚ) : ℚ :=
  ((x.zip y).map (fun p => (p.1 - mean x) * (p.2 - mean y))).sum

/-- Outcome of `np.corrcoef(x, y)[0, 1]` inside the attack's `try` block:
`raised` models the `ValueError` thrown when the two arrays have different
lengths (caught by the bare `except`, which skips the budget check);
`nan` models the NaN produced when either variance is zero (NaN is *not* an
exception: every `abs(nan) > _` comparison is simply false and the budget
check still runs); `val c` is the defined Pearson correlation. -/
inductive CorrOutcome where
  | raised
  | nan
  | val (c : ℝ)

/-- `np.corrcoef(x, y)[0, 1]` (Pearson correlation; the `1/(n-1)` factors of
covariance and variances cancel). -/
noncomputable def corrcoef (x y : List ℚ) : CorrOutcome :=
  if x.length ≠ y.length then .raised
  else if sqDev x = 0 ∨ sqDev y = 0 then .nan
  else .val ((covSum x y : ℝ) / Real.sqrt ((sqDev x : ℝ) * (sqDev y : ℝ)))

/-- Mutable state of a brute-force search loop. -/
structure AttackState where
  attempts : ℕ
  success : Bool
  best_match : ℝ
  best_params : Option (ℚ × ℚ)

/-- The dictionary returned by each `brute_force_attack_*` function. -/
structure AttackResult where
  success : Bool
  attempts : ℕ
  best_match : ℝ
  best_params : Option (ℚ × ℚ)
  success_rate : ℚ

/-- `np.linspace(a, b, num)` (both endpoints included). -/
def linspace (a b : ℚ) (num : ℕ) : List ℚ :=
  (List.range num).map (fun (i : ℕ) => a + (b - a) * i / ((num : ℚ) - 1))

section Attack

variable (reconstruct : ℚ → ℚ → List ℚ) (original_signal : List ℚ)
variable (threshold : ℝ) (max_attempts : ℕ)

open Classical in
/-- The inner `for x0 in x0_range` loop of every `brute_force_attack_*`
function, for a fixed `r`.  Each iteration increments `attempts`, tries one
reconstruction and handles its correlation: a raised error hits `continue`
(skipping the `attempts >= max_attempts` check); a defined correlation first
updates `best_match`/`best_params` (strict improvement), then breaks on
success (`abs(corr) > threshold`); finally the budget check breaks the loop.
`break` is modelled by returning the state instead of recursing. -/
noncomputable def attackInner (r : ℚ) : List ℚ → AttackState → AttackState
  | [], s => s
  | x0 :: rest, s =>
    let s1 : AttackState := { s with attempts := s.attempts + 1 }
    match corrcoef original_signal (reconstruct r x0) with
    | .raised => attackInner r rest s1
    | .nan =>
      if max_attempts ≤ s1.attempts then s1 else attackInner r rest s1
    | .val c =>
      let s2 : AttackState :=
        if s1.best_match < |c| then
          { s1 with best_match := |c|, best_params := some (r, x0) }
        else s1
      if threshold < |c| then { s2 with success := true }
      else if max_attempts ≤ s2.attempts then s2
      else attackInner r rest s2

/-- The outer `for r in r_range` loop: runs the inner loop for each `r` and
breaks when `success or attempts >= max_attempts`. -/
noncomputable def attackOuter (x0_range : List ℚ) :
    List ℚ → AttackState → AttackState
  | [], s => s
  | r :: rest, s =>
    let s' := attackInner reconstruct original_signal threshold max_attempts r x0_range s
    if s'.success = true ∨ max_attempts ≤ s'.attempts then s'
    else attackOuter x0_range rest s'

end Attack

/-- Packaging of the final search state into the returned dictionary:
`success_rate = attempts / grid_size if attempts < grid_size else 1.0`. -/
noncomputable def mkAttackResult (s : AttackState) (grid_size : ℕ) : AttackResult :=
  { success := s.success, attempts := s.attempts, best_match := s.best_match,
    best_params := s.best_params,
    success_rate :=
      if s.attempts < grid_size then (s.attempts : ℚ) / (grid_size : ℚ) else 1 }

/-- `brute_force_attack_classical(encrypted_signal, original_signal,
signal_range, max_attempts=200)`: grid `linspace(3.5,4.0,20) × linspace(0.1,0.9,10)`,
per-trial reconstruction `classical_chaotic_decrypt`, success threshold 0.7. -/
noncomputable def brute_force_attack_classical (encrypted_signal : List ℕ)
    (original_signal : List ℚ) (signal_range : ℚ × ℚ) (max_attempts : ℕ) :
    AttackResult :=
  let r_range := linspace (7/2) 4 20
  let x0_range := linspace (1/10) (9/10) 10
  let s := attackOuter
    (fun r x0 => classical_chaotic_decrypt encrypted_signal r x0 signal_range)
    original_signal (7/10 : ℝ) max_attempts x0_range r_range
    ⟨0, false, 0, none⟩
  mkAttackResult s (r_range.length * x0_range.length)

/-- The per-trial reconstruction inlined in `brute_force_attack_biometric`
(and, line for line, in `brute_force_attack_ml_enhanced`): regenerate the
chaotic sequence, permutation and mask from the candidate key, undo the XOR,
apply the inverse permutation and de-normalize. -/
def biometric_trial_decrypt (encrypted_signal : List ℕ) (signal_range : ℚ × ℚ)
    (r x0 : ℚ) : List ℚ :=
  let n := encrypted_signal.length
  let chaotic_seq := logistic_map x0 r n
  let permutation := argsort chaotic_seq
  let xor_mask := xorMask chaotic_seq
  let xor_reversed := List.zipWith (· ^^^ ·) encrypted_signal xor_mask
  let inverse_perm := argsort permutation
  let decrypted_scaled := npIndex xor_reversed inverse_perm
  decrypted_scaled.map
    (fun (b : ℕ) => (b : ℚ) / 255 * (signal_range.2 - signal_range.1) + signal_range.1)

/-- `brute_force_attack_biometric(...)`: grid `25 × 16`, threshold 0.8. -/
noncomputable def brute_force_attack_biometric (encrypted_signal : List ℕ)
    (original_signal : List ℚ) (signal_range : ℚ × ℚ) (max_attempts : ℕ) :
    AttackResult :=
  let r_range := linspace (7/2) 4 25
  let x0_range := linspace (1/10) (9/10) 16
  let s := attackOuter
    (fun r x0 => biometric_trial_decrypt encrypted_signal signal_range r x0)
    original_signal (8/10 : ℝ) max_attempts x0_range r_range
    ⟨0, false, 0, none⟩
  mkAttackResult s (r_range.length * x0_range.length)

/-- `brute_force_attack_ml_enhanced(...)`: grid `30 × 20`, threshold 0.85
(the `model, scaler, imputer` parameters are unused by its body). -/
noncomputable def brute_force_attack_ml_enhanced (encrypted_signal : List ℕ)
    (original_signal : List ℚ) (signal_range : ℚ × ℚ) (max_attempts : ℕ) :
    AttackResult :=
  let r_range := linspace (7/2) 4 30
  let x0_range := linspace (1/10) (9/10) 20
  let s := attackOuter
    (fun r x0 => biometric_trial_decrypt encrypted_signal signal_range r x0)
    original_signal (85/100 : ℝ) max_attempts x0_range r_range
    ⟨0, false, 0, none⟩
  mkAttackResult s (r_range.length * x0_range.length)

/-- `ml_enhanced_encrypt(signal, model, scaler, imputer, r, x0)` with the key
passed explicitly: its body is line-for-line the body of `biometric_encrypt`
(only the default key source differs, `predict_key` instead of
`extract_biometric_key`). -/
def ml_enhanced_encrypt (signal : List ℚ) (r x0 : ℚ) :
    List ℕ × List ℕ × List ℕ × (ℚ × ℚ) × ℚ × ℚ :=
  let n := signal.length
  let chaotic_seq := logistic_map x0 r n
  let scaled_signal := scale_signal signal
  let xor_mask := xorMask chaotic_seq
  let permutation := argsort chaotic_seq
  let permuted_signal := npIndex scaled_signal permutation
  (List.zipWith (· ^^^ ·) permuted_signal xor_mask, permutation, xor_mask,
    (listMin signal, listMax signal), r, x0)

/-- The row-major flattening of the attack's search grid: `r` is the outer
loop, `x0` the inner loop, both in list order. -/
def flatTrials (r_range x0_range : List ℚ) : List (ℚ × ℚ) :=
  r_range.flatMap (fun r => x0_range.map (fun x0 => (r, x0)))

open Classical in
/-- The running maximum of `abs(correlation)` over a list of trials (the
update applied by the attack loops for each defined correlation), starting
from `m`. -/
noncomputable def bestFold (reconstruct : ℚ → ℚ → List ℚ) (orig : List ℚ)
    (ts : List (ℚ × ℚ)) (m : ℝ) : ℝ :=
  ts.foldl (fun acc t =>
    match corrcoef orig (reconstruct t.1 t.2) with
    | CorrOutcome.val c => if acc < |c| then |c| else acc
    | _ => acc) m

/-! ### Basic lemmas about the chaotic sequence generator -/

theorem logisticIter_length (r : ℚ) : ∀ (n : ℕ) (x : ℚ), (logisticIter r n x).length = n
  | 0, _ => rfl
  | n + 1, x => by
    simp only [logisticIter, List.length_cons]
    exact congrArg (· + 1) (logisticIter_length r n _)

theorem logistic_map_length (x0 r : ℚ) (n : ℕ) : (logistic_map x0 r n).length = n :=
  logisticIter_length r n x0

theorem logisticIter_mem_bounds (r : ℚ) (hr0 : 0 ≤ r) (hr4 : r ≤ 4) :
    ∀ (n : ℕ) (x : ℚ), 0 ≤ x → x ≤ 1 →
      ∀ y ∈ logisticIter r n x, 0 ≤ y ∧ y ≤ 1
  | 0, _, _, _, y, hy => by simp [logisticIter] at hy
  | n + 1, x, hx0, hx1, y, hy => by
    simp only [logisticIter, List.mem_cons] at hy
    have hstep0 : 0 ≤ r * x * (1 - x) :=
      mul_nonneg (mul_nonneg hr0 hx0) (by linarith)
    have hstep1 : r * x * (1 - x) ≤ 1 := by nlinarith [sq_nonneg (2 * x - 1)]
    rcases hy with rfl | hy
    · exact ⟨hstep0, hstep1⟩
    · exact logisticIter_mem_bounds r hr0 hr4 n _ hstep0 hstep1 y hy

/-- Claim C2 (counterexample): for `r = 4.5` outside `(0, 4]` (and `x0 = 0.5`
inside `(0,1)`), `logistic_map` does not fail: it returns the sequence
`[1.125]`, silently accepting an iterate that has already left `[0, 1]`. -/
theorem claim_C2_counterexample :
    logistic_map (1/2) (9/2) 1 = [9/8] ∧ ¬ ((9/8 : ℚ) ≤ 1) := by
  constructor
  · norm_num [logistic_map, logisticIter]
  · norm_num

/-- Claim C2 (amended): the chaotic sequence generator performs no domain
validation: for every `r` and `x0` whatsoever it returns a sequence of the
requested length `n` (there is no failure path); for `r ∈ (0,4]` and
`x0 ∈ (0,1)` every iterate stays inside `[0, 1]`. -/
theorem claim_C2_amended (r x0 : ℚ) (n : ℕ) :
    (logistic_map x0 r n).length = n ∧
      (0 < r → r ≤ 4 → 0 < x0 → x0 < 1 →
        ∀ y ∈ logistic_map x0 r n, 0 ≤ y ∧ y ≤ 1) := by
  refine ⟨logistic_map_length x0 r n, fun hr0 hr4 hx0 hx1 y hy => ?_⟩
  exact logisticIter_mem_bounds r (le_of_lt hr0) hr4 n x0 (le_of_lt hx0)
    (le_of_lt hx1) y hy

/-- Witness for C2 at `r = 4`, `x0 = 1/2`, `n = 2`. -/
theorem claim_C2_witness :
    (0 : ℚ) < 4 ∧ (4 : ℚ) ≤ 4 ∧ (0 : ℚ) < 1/2 ∧ (1/2 : ℚ) < 1 ∧
      ((logistic_map (1/2) 4 2).length = 2 ∧
        ∀ y ∈ logistic_map (1/2) 4 2, 0 ≤ y ∧ y ≤ 1) := by
  refine ⟨by norm_num, le_refl _, by norm_num, by norm_num, ?_, ?_⟩
  · exact (claim_C2_amended 4 (1/2) 2).1
  · exact (claim_C2_amended 4 (1/2) 2).2 (by norm_num) (le_refl _) (by norm_num)
      (by norm_num)

/-! ### The concrete Classical scenario (C3) -/

theorem scale_signal_concrete :
    scale_signal [1, 2, 3, 4, 5] = [0, 63, 127, 191, 255] := by
  norm_num [scale_signal, listMin, listMax, List.foldl, min_def, max_def, toByte]
  decide

/-- Claim C3 (counterexample): the 8-bit scaling of `[1,2,3,4,5]` produced by
the code is not the claimed rounded value `[0, 64, 128, 191, 255]` — the
`astype(np.uint8)` cast truncates instead of rounding, giving
`[0, 63, 127, 191, 255]`. -/
theorem claim_C3_counterexample :
    scale_signal [1, 2, 3, 4, 5] ≠ [0, 64, 128, 191, 255] := by
  rw [scale_signal_concrete]
  decide

/-- Claim C3 (amended): for `signal = [1,2,3,4,5]`, `r = 3.7`, `x0 = 0.3`:
the first chaotic iterate is exactly `3.7·0.3·0.7 = 0.777`; the scaled signal
is `[0, 63, 127, 191, 255]` (truncation toward zero, not rounding); XOR-mask
byte 0 is `floor(0.777·255) = 198`; and the first Classical-encrypted byte is
`0 XOR 198 = 198`. -/
theorem claim_C3_amended :
    (logistic_map (3/10) (37/10) 5).getD 0 0 = 777/1000 ∧
      scale_signal [1, 2, 3, 4, 5] = [0, 63, 127, 191, 255] ∧
      (xorMask (logistic_map (3/10) (37/10) 5)).getD 0 0 = 198 ∧
      (0 : ℕ) ^^^ 198 = 198 ∧
      (classical_chaotic_encrypt [1, 2, 3, 4, 5] (37/10) (3/10)).1.getD 0 0 = 198 := by
  refine ⟨?_, scale_signal_concrete, ?_, by decide, ?_⟩
  · norm_num [logistic_map, logisticIter]
  · norm_num [xorMask, logistic_map, logisticIter, toByte]
    decide
  · norm_num [classical_chaotic_encrypt, xorMask, logistic_map, logisticIter, toByte,
      scale_signal, listMin, listMax, List.foldl, min_def, max_def]
    decide

/-! ### What the encrypt calls return (C6) -/

/-- Claim C6 (counterexample): at `signal = [1,2]`, `r = 3.7`, `x0 = 0.3`,
the tuple returned by `biometric_encrypt` (and by `ml_enhanced_encrypt`)
carries the secret key itself as its last two components, and the whole XOR
keystream as its third component — contradicting the claim that no output
component equals `r` or `x0` and that the keystream cannot be read off. -/
theorem claim_C6_counterexample :
    (biometric_encrypt [1, 2] (37/10) (3/10)).2.2.2.2.1 = 37/10 ∧
      (biometric_encrypt [1, 2] (37/10) (3/10)).2.2.2.2.2 = 3/10 ∧
      (biometric_encrypt [1, 2] (37/10) (3/10)).2.2.1 =
        xorMask (logistic_map (3/10) (37/10) 2) ∧
      (ml_enhanced_encrypt [1, 2] (37/10) (3/10)).2.2.2.2 = (37/10, 3/10) :=
  ⟨rfl, rfl, rfl, rfl⟩

/-- Claim C6 (amended): the Classical encrypt's outputs carry no key
material — its sidecar is `(min, max)` of the signal alone, identical for
any two keys; but `biometric_encrypt` and `ml_enhanced_encrypt` return the
secret `r`, `x0` and the XOR mask itself as components of their return
tuples (the attack harness nevertheless hands the attacker only the
ciphertext and the normalization range). -/
theorem claim_C6_amended (signal : List ℚ) (r x0 r' x0' : ℚ) :
    (classical_chaotic_encrypt signal r x0).2 =
        (classical_chaotic_encrypt signal r' x0').2 ∧
      (classical_chaotic_encrypt signal r x0).2 = (listMin signal, listMax signal) ∧
      (biometric_encrypt signal r x0).2.2.2.2 = (r, x0) ∧
      (biometric_encrypt signal r x0).2.2.1 =
        xorMask (logistic_map x0 r signal.length) ∧
      (ml_enhanced_encrypt signal r x0).2.2.2.2 = (r, x0) :=
  ⟨rfl, rfl, rfl, rfl, rfl⟩

/-! ### Key derivation (C4) -/

theorem fmodR_mem (x m : ℝ) (hm : 0 < m) : 0 ≤ fmodR x m ∧ fmodR x m < m := by
  have h1 : ((⌊x / m⌋ : ℝ)) ≤ x / m := Int.floor_le _
  have h2 : x / m < ⌊x / m⌋ + 1 := Int.lt_floor_add_one _
  have h3 : m * (x / m) = x := by field_simp
  have h4 := mul_le_mul_of_nonneg_left h1 hm.le
  have h5 := (mul_lt_mul_left hm).2 h2
  rw [fmodR]
  constructor <;> nlinarith [h3, h4, h5]

theorem fmodR_zero (m : ℝ) : fmodR 0 m = 0 := by
  simp [fmodR]

theorem sum_of_const (c : ℚ) :
    ∀ l : List ℚ, (∀ x ∈ l, x = c) → l.sum = (l.length : ℚ) * c
  | [], _ => by simp
  | a :: t, h => by
    have ha : a = c := h a (by simp)
    have ht := sum_of_const c t (fun x hx => h x (by simp [hx]))
    simp only [List.sum_cons, List.length_cons, ht, ha]
    push_cast
    ring

theorem mean_const (l : List ℚ) (c : ℚ) (hne : l ≠ []) (h : ∀ x ∈ l, x = c) :
    mean l = c := by
  have hlen : (l.length : ℚ) ≠ 0 :=
    Nat.cast_ne_zero.2 (fun h0 => hne (List.length_eq_zero.1 h0))
  rw [mean, sum_of_const c l h]
  field_simp

theorem meanSqDev_const (l : List ℚ) (c : ℚ) (hne : l ≠ []) (h : ∀ x ∈ l, x = c) :
    meanSqDev l = 0 := by
  have hz : (l.map (fun x => (x - mean l) ^ 2)).sum = 0 := by
    apply List.sum_eq_zero
    intro y hy
    rcases List.mem_map.1 hy with ⟨x, hx, rfl⟩
    rw [h x hx, mean_const l c hne h]
    ring
  rw [meanSqDev, hz, zero_div]

theorem meanSqDev_nonneg (l : List ℚ) : 0 ≤ meanSqDev l := by
  apply div_nonneg _ (by positivity)
  apply List.sum_nonneg
  intro y hy
  rcases List.mem_map.1 hy with ⟨x, _, rfl⟩
  positivity

/-- Claim C4 (confirmed): for every (nonempty) signal the biometric key
derivation returns exactly `r = 3.6 + (std % 0.4)` and
`x0 = 0.1 + (mean % 0.8)`; the pair always lies in the admissible domain
(`3.5 < r ≤ 4`, `0 < x0 < 1`), and a constant (zero-variance) signal is not
an error and yields `r = 3.6` exactly. -/
theorem claim_C4_key_derivation (signal : List ℚ) (hne : signal ≠ []) :
    (extract_biometric_key signal).1 = 36/10 + fmodR (listStd signal) (4/10) ∧
      (extract_biometric_key signal).2 = 1/10 + fmodR ((mean signal : ℝ)) (8/10) ∧
      (7/2 : ℝ) < (extract_biometric_key signal).1 ∧
      (extract_biometric_key signal).1 ≤ 4 ∧
      (0 : ℝ) < (extract_biometric_key signal).2 ∧
      (extract_biometric_key signal).2 < 1 ∧
      ∀ c : ℚ, (∀ x ∈ signal, x = c) → (extract_biometric_key signal).1 = 36/10 := by
  have hr := fmodR_mem (listStd signal) (4/10) (by norm_num)
  have hx := fmodR_mem ((mean signal : ℝ)) (8/10) (by norm_num)
  refine ⟨rfl, rfl, ?_, ?_, ?_, ?_, ?_⟩
  · show (7/2 : ℝ) < 36/10 + fmodR (listStd signal) (4/10)
    linarith [hr.1]
  · show 36/10 + fmodR (listStd signal) (4/10) ≤ 4
    linarith [hr.2]
  · show (0 : ℝ) < 1/10 + fmodR ((mean signal : ℝ)) (8/10)
    linarith [hx.1]
  · show 1/10 + fmodR ((mean signal : ℝ)) (8/10) < 1
    linarith [hx.2]
  · intro c hc
    show 36/10 + fmodR (listStd signal) (4/10) = 36/10
    have hsd : listStd signal = 0 := by
      rw [listStd, meanSqDev_const signal c hne hc]
      simp
    rw [hsd, fmodR_zero, add_zero]

/-- Witness for C4 at the constant signal `[5, 5]`. -/
theorem claim_C4_witness :
    ([5, 5] : List ℚ) ≠ [] ∧
      ((extract_biometric_key [5, 5]).1 = 36/10 + fmodR (listStd [5, 5]) (4/10) ∧
        (extract_biometric_key [5, 5]).2 = 1/10 + fmodR ((mean [5, 5] : ℚ) : ℝ) (8/10) ∧
        (7/2 : ℝ) < (extract_biometric_key [5, 5]).1 ∧
        (extract_biometric_key [5, 5]).1 ≤ 4 ∧
        (0 : ℝ) < (extract_biometric_key [5, 5]).2 ∧
        (extract_biometric_key [5, 5]).2 < 1 ∧
        ∀ c : ℚ, (∀ x ∈ ([5, 5] : List ℚ), x = c) →
          (extract_biometric_key [5, 5]).1 = 36/10) :=
  ⟨by simp, claim_C4_key_derivation [5, 5] (by simp)⟩

/-! ### Determinism (C7) -/

theorem zipWith_zero_eta (alpha : ℚ) :
    ∀ (l n1 n2 : List ℚ), l.length ≤ n1.length → l.length ≤ n2.length →
      List.zipWith (fun c z => alpha * c + 0 * z) l n1 =
        List.zipWith (fun c z => alpha * c + 0 * z) l n2
  | [], _, _, _, _ => by simp
  | a :: l, [], _, h1, _ => by simp at h1
  | a :: l, _ :: _, [], _, h2 => by simp at h2
  | a :: l, b1 :: n1, b2 :: n2, h1, h2 => by
    rw [List.zipWith_cons_cons, List.zipWith_cons_cons]
    exact congrArg₂ List.cons (by ring) (zipWith_zero_eta alpha l n1 n2
      (Nat.le_of_succ_le_succ h1) (Nat.le_of_succ_le_succ h2))

/-- Claim C7 (counterexample): the GUI's `ml_enhanced_encrypt` is *not*
deterministic in `(signal, key, alpha, eta)`: with identical signal
`[0, 100]`, key `r = 3.7, x0 = 0.3`, `alpha = 1`, `eta = 1`, two draws that
`np.random.random(2)` can actually produce — `[0, 0]` and `[0, 0.2]`, both
inside `[0, 1)` — yield different ciphertexts (the second draw flips the
permutation). -/
theorem claim_C7_counterexample :
    isRandomDraw 2 [0, 0] ∧ isRandomDraw 2 [0, 1/5] ∧
      (gui_ml_enhanced_encrypt [0, 100] (37/10) (3/10) 1 1 [0, 0]).1 ≠
        (gui_ml_enhanced_encrypt [0, 100] (37/10) (3/10) 1 1 [0, 1/5]).1 := by
  refine ⟨by norm_num [isRandomDraw], by norm_num [isRandomDraw], ?_⟩
  intro h
  apply_fun (fun l => l.getD 0 (0 : ℝ)) at h
  norm_num [gui_ml_enhanced_encrypt, logistic_map, logisticIter, argsort, argsortRel, npIndex,
    List.insertionSort, List.orderedInsert, List.range_succ, List.getD_cons_zero] at h

/-- Claim C7 (amended): the comparison script's operations are pure functions
of their inputs, and `logistic_map(x0=0.623, r=3.847, n=1)` yields exactly
`[3.847·0.623·(1−0.623)]`; the GUI `ml_enhanced_encrypt`, however, consumes a
fresh `np.random.random(n)` draw on each call: with `eta ≠ 0` two feasible
draws (samples in `[0, 1)`) can produce different ciphertexts for identical
`(signal, key, alpha, eta)`, while with `eta = 0` its output is independent
of the draw. -/
theorem claim_C7_amended :
    logistic_map (623/1000) (3847/1000) 1 =
        [3847/1000 * (623/1000) * (1 - 623/1000)] ∧
      (∃ noise1 noise2 : List ℚ, isRandomDraw 2 noise1 ∧ isRandomDraw 2 noise2 ∧
        (gui_ml_enhanced_encrypt [0, 100] (37/10) (3/10) 1 1 noise1).1 ≠
          (gui_ml_enhanced_encrypt [0, 100] (37/10) (3/10) 1 1 noise2).1) ∧
      ∀ (signal : List ℚ) (r x0 alpha : ℚ) (noise1 noise2 : List ℚ),
        isRandomDraw signal.length noise1 → isRandomDraw signal.length noise2 →
        gui_ml_enhanced_encrypt signal r x0 alpha 0 noise1 =
          gui_ml_enhanced_encrypt signal r x0 alpha 0 noise2 := by
  refine ⟨by norm_num [logistic_map, logisticIter], ?_, ?_⟩
  · refine ⟨[0, 0], [0, 1/5], by norm_num [isRandomDraw], by norm_num [isRandomDraw], ?_⟩
    intro h
    apply_fun (fun l => l.getD 0 (0 : ℝ)) at h
    norm_num [gui_ml_enhanced_encrypt, logistic_map, logisticIter, argsort, argsortRel, npIndex,
      List.insertionSort, List.orderedInsert, List.range_succ, List.getD_cons_zero] at h
  · intro signal r x0 alpha noise1 noise2 h1 h2
    have hl1 : (logistic_map x0 r signal.length).length ≤ noise1.length := by
      rw [logistic_map_length, h1.1]
    have hl2 : (logistic_map x0 r signal.length).length ≤ noise2.length := by
      rw [logistic_map_length, h2.1]
    simp only [gui_ml_enhanced_encrypt]
    rw [zipWith_zero_eta alpha _ _ _ hl1 hl2]

/-- Witness for the `eta = 0` branch of the amended C7 at concrete feasible
draws (samples in `[0, 1)`). -/
theorem claim_C7_witness :
    isRandomDraw ([1, 2] : List ℚ).length [1/2, 1/4] ∧
      isRandomDraw ([1, 2] : List ℚ).length [1/3, 2/3] ∧
      gui_ml_enhanced_encrypt [1, 2] (37/10) (3/10) 2 0 [1/2, 1/4] =
        gui_ml_enhanced_encrypt [1, 2] (37/10) (3/10) 2 0 [1/3, 2/3] := by
  have hd1 : isRandomDraw ([1, 2] : List ℚ).length [1/2, 1/4] := by
    norm_num [isRandomDraw]
  have hd2 : isRandomDraw ([1, 2] : List ℚ).length [1/3, 2/3] := by
    norm_num [isRandomDraw]
  exact ⟨hd1, hd2,
    claim_C7_amended.2.2 [1, 2] (37/10) (3/10) 2 [1/2, 1/4] [1/3, 2/3] hd1 hd2⟩

/-! ### The two inequivalent biometric transforms (C8) -/

/-- Claim C8 (confirmed): for `signal = [1,2,3]` and the valid key
`r = 3.7 ∈ (3.5, 4]`, `x0 = 0.3 ∈ (0, 1)`, the GUI's additive float cipher
`chaotic_encrypt` and the comparison script's permutation+XOR cipher
`biometric_encrypt` produce different ciphertexts, even after mapping the
byte ciphertext back through the de-normalization map of its own sidecar:
the two definitions are not equivalent ciphers. -/
theorem claim_C8_two_defs :
    (7/2 : ℚ) < 37/10 ∧ (37/10 : ℚ) ≤ 4 ∧ (0 : ℚ) < 3/10 ∧ (3/10 : ℚ) < 1 ∧
      (gui_chaotic_encrypt [1, 2, 3] (37/10) (3/10)).1 ≠
        ((biometric_encrypt [1, 2, 3] (37/10) (3/10)).1.map
          (fun b => (b : ℚ) / 255 *
              ((biometric_encrypt [1, 2, 3] (37/10) (3/10)).2.2.2.1.2 -
                (biometric_encrypt [1, 2, 3] (37/10) (3/10)).2.2.2.1.1) +
            (biometric_encrypt [1, 2, 3] (37/10) (3/10)).2.2.2.1.1)) := by
  refine ⟨by norm_num, by norm_num, by norm_num, by norm_num, ?_⟩
  have hgui : (gui_chaotic_encrypt [1, 2, 3] (37/10) (3/10)).1.getD 0 0 = 2777/1000 := by
    norm_num [gui_chaotic_encrypt, logistic_map, logisticIter, argsort, argsortRel, npIndex,
      List.insertionSort, List.orderedInsert, List.range_succ]
  have henc : (biometric_encrypt [1, 2, 3] (37/10) (3/10)).1 = [185, 163, 38] := by
    norm_num [biometric_encrypt, logistic_map, logisticIter, argsort, argsortRel, npIndex,
      List.insertionSort, List.orderedInsert, List.range_succ, xorMask, toByte,
      scale_signal, listMin, listMax, List.foldl, min_def, max_def]
    decide
  have hrange : (biometric_encrypt [1, 2, 3] (37/10) (3/10)).2.2.2.1 = (1, 3) := by
    norm_num [biometric_encrypt, listMin, listMax, List.foldl, min_def, max_def]
  intro h
  rw [henc, hrange] at h
  apply_fun (fun l => l.getD 0 (0 : ℚ)) at h
  rw [hgui] at h
  norm_num [List.getD_cons_zero] at h

/-! ### Round-trip machinery (C1): permutations, quantization error -/

theorem getD_map_of_lt {α β : Type} (l : List α) (f : α → β) (i : ℕ) (d : α) (d' : β)
    (h : i < l.length) : (l.map f).getD i d' = f (l.getD i d) := by
  rw [List.getD_eq_getElem (l.map f) d' (by simpa using h), List.getD_eq_getElem l d h]
  simp

theorem map_getD_range {α : Type} (d : α) :
    ∀ l : List α, (List.range l.length).map (fun i => l.getD i d) = l
  | [] => rfl
  | a :: t => by
    rw [List.length_cons, List.range_succ_eq_map, List.map_cons, List.map_map]
    refine congrArg₂ List.cons rfl ?_
    have : ((fun i => (a :: t).getD i d) ∘ Nat.succ) = fun i => t.getD i d := by
      funext i
      simp [Function.comp, List.getD_cons_succ]
    rw [this, map_getD_range d t]

theorem argsort_perm {α : Type} [LinearOrder α] [Inhabited α] (l : List α) :
    (argsort l).Perm (List.range l.length) :=
  List.perm_insertionSort _ _

theorem argsort_length {α : Type} [LinearOrder α] [Inhabited α] (l : List α) :
    (argsort l).length = l.length := by
  rw [(argsort_perm l).length_eq, List.length_range]

theorem mem_argsort_lt {α : Type} [LinearOrder α] [Inhabited α] (l : List α) (j : ℕ)
    (h : j ∈ argsort l) : j < l.length :=
  List.mem_range.1 ((argsort_perm l).mem_iff.1 h)

theorem argsort_sorted {α : Type} [LinearOrder α] [Inhabited α] (l : List α) :
    (argsort l).Pairwise (fun i j => l.getD i default ≤ l.getD j default) := by
  have hs : (argsort l).Pairwise (argsortRel l) :=
    List.sorted_insertionSort (argsortRel l) (List.range l.length)
  refine hs.imp ?_
  intro i j hij
  rcases hij with h | ⟨h, _⟩
  · exact le_of_lt h
  · exact le_of_eq h

/-- Applying a permutation `p` of `range n` to its own `argsort` recovers
`range n`: `argsort p` is the inverse index map of `p`. -/
theorem argsort_comp_self (p : List ℕ) (hp : p.Perm (List.range p.length)) :
    (argsort p).map (fun j => p.getD j default) = List.range p.length := by
  have hq : (argsort p).Perm (List.range p.length) := argsort_perm p
  have hperm1 : ((argsort p).map (fun j => p.getD j default)).Perm
      ((List.range p.length).map (fun j => p.getD j default)) :=
    hq.map _
  rw [map_getD_range default p] at hperm1
  have hperm : ((argsort p).map (fun j => p.getD j default)).Perm
      (List.range p.length) := hperm1.trans hp
  have hsorted : ((argsort p).map (fun j => p.getD j default)).Pairwise (· ≤ ·) :=
    List.pairwise_map.2 (argsort_sorted p)
  exact List.eq_of_perm_of_sorted hperm hsorted (List.sorted_le_range p.length)

/-- NumPy fancy-indexing round trip: `x[p][argsort(p)] == x` for a
permutation `p` of `range(len(x))`. -/
theorem npIndex_argsort_inverse {α : Type} [Inhabited α] (p : List ℕ) (l : List α)
    (hp : p.Perm (List.range p.length)) (hl : l.length = p.length) :
    npIndex (npIndex l p) (argsort p) = l := by
  unfold npIndex
  have hstep : (argsort p).map (fun j => (p.map (fun i => l.getD i default)).getD j default) =
      (argsort p).map (fun j => l.getD (p.getD j default) default) := by
    apply List.map_congr_left
    intro j hj
    exact getD_map_of_lt p (fun i => l.getD i default) j default default
      (mem_argsort_lt p j hj)
  rw [hstep]
  have hcomp : (argsort p).map (fun j => l.getD (p.getD j default) default) =
      ((argsort p).map (fun j => p.getD j default)).map (fun i => l.getD i default) := by
    rw [List.map_map]
    rfl
  rw [hcomp, argsort_comp_self p hp, ← hl, map_getD_range]

theorem zipWith_xor_cancel :
    ∀ (a b : List ℕ), a.length = b.length →
      List.zipWith (· ^^^ ·) (List.zipWith (· ^^^ ·) a b) b = a
  | [], [], _ => rfl
  | [], _ :: _, h => by simp at h
  | _ :: _, [], h => by simp at h
  | x :: a, y :: b, h => by
    simp only [List.zipWith_cons_cons]
    refine congrArg₂ List.cons ?_ (zipWith_xor_cancel a b (by simpa using h))
    rw [Nat.xor_assoc, Nat.xor_self, Nat.xor_zero]

theorem scale_signal_length (signal : List ℚ) :
    (scale_signal signal).length = signal.length := by
  simp only [scale_signal]
  split_ifs <;> simp

theorem xorMask_length (seq : List ℚ) : (xorMask seq).length = seq.length := by
  simp [xorMask]

theorem npIndex_length {α : Type} [Inhabited α] (l : List α) (idx : List ℕ) :
    (npIndex l idx).length = idx.length := by
  simp [npIndex]

theorem listMin_le_mem (l : List ℚ) : ∀ x ∈ l, listMin l ≤ x := by
  have aux : ∀ (t : List ℚ) (acc : ℚ),
      t.foldl min acc ≤ acc ∧ ∀ x ∈ t, t.foldl min acc ≤ x := by
    intro t
    induction t with
    | nil => intro acc; exact ⟨le_refl acc, by simp⟩
    | cons b t ih =>
      intro acc
      have h := ih (min acc b)
      refine ⟨le_trans h.1 (min_le_left acc b), ?_⟩
      intro x hx
      rcases List.mem_cons.1 hx with rfl | hx
      · exact le_trans h.1 (min_le_right acc x)
      · exact h.2 x hx
  intro x hx
  cases l with
  | nil => cases hx
  | cons a t =>
    rcases List.mem_cons.1 hx with rfl | hx
    · exact (aux t x).1
    · exact (aux t a).2 x hx

theorem mem_le_listMax (l : List ℚ) : ∀ x ∈ l, x ≤ listMax l := by
  have aux : ∀ (t : List ℚ) (acc : ℚ),
      acc ≤ t.foldl max acc ∧ ∀ x ∈ t, x ≤ t.foldl max acc := by
    intro t
    induction t with
    | nil => intro acc; exact ⟨le_refl acc, by simp⟩
    | cons b t ih =>
      intro acc
      have h := ih (max acc b)
      refine ⟨le_trans (le_max_left acc b) h.1, ?_⟩
      intro x hx
      rcases List.mem_cons.1 hx with rfl | hx
      · exact le_trans (le_max_right acc x) h.1
      · exact h.2 x hx
  intro x hx
  cases l with
  | nil => cases hx
  | cons a t =>
    rcases List.mem_cons.1 hx with rfl | hx
    · exact (aux t x).1
    · exact (aux t a).2 x hx

/-- The 8-bit quantization/dequantization error bound for one sample:
scaling into a byte by truncation and mapping back moves a value by at most
`(max - min) / 255`. -/
theorem dequant_error (mn mx v : ℚ) (h1 : mn ≤ v) (h2 : v ≤ mx) (h : mn < mx) :
    |((toByte ((v - mn) / (mx - mn) * 255) : ℚ)) / 255 * (mx - mn) + mn - v| ≤
      (mx - mn) / 255 := by
  set T : ℚ := (v - mn) / (mx - mn) * 255 with hT
  have hgt : (0 : ℚ) < mx - mn := by linarith
  have hT0 : 0 ≤ T := by
    apply mul_nonneg _ (by norm_num)
    exact div_nonneg (by linarith) (le_of_lt hgt)
  have hT255 : T ≤ 255 := by
    have hle1 : (v - mn) / (mx - mn) ≤ 1 := (div_le_one hgt).2 (by linarith)
    calc T = (v - mn) / (mx - mn) * 255 := hT
    _ ≤ 1 * 255 := by
      apply mul_le_mul_of_nonneg_right hle1
      norm_num
    _ = 255 := one_mul 255
  have hfl0 : (0 : ℤ) ≤ ⌊T⌋ := Int.floor_nonneg.2 hT0
  have hfl255 : ⌊T⌋ ≤ 255 := by
    have h255 : ⌊(255 : ℚ)⌋ = 255 := by norm_num
    calc ⌊T⌋ ≤ ⌊(255 : ℚ)⌋ := Int.floor_le_floor hT255
    _ = 255 := h255
  have htn : ((⌊T⌋).toNat : ℤ) = ⌊T⌋ := Int.toNat_of_nonneg hfl0
  have htb : toByte T = (⌊T⌋).toNat := by
    rw [toByte]
    apply Nat.mod_eq_of_lt
    omega
  have hcast : ((toByte T : ℕ) : ℚ) = ((⌊T⌋ : ℤ) : ℚ) := by
    rw [htb]
    exact_mod_cast congrArg (fun z : ℤ => (z : ℚ)) htn
  rw [hcast]
  have hfloor_le : ((⌊T⌋ : ℤ) : ℚ) ≤ T := Int.floor_le T
  have hfloor_gt : T - 1 < ((⌊T⌋ : ℤ) : ℚ) := Int.sub_one_lt_floor T
  have hv : T / 255 * (mx - mn) = v - mn := by
    rw [hT]
    field_simp
    ring
  rw [abs_le]
  constructor
  · have hmul := mul_le_mul_of_nonneg_right
      (show (-1 : ℚ) ≤ ((⌊T⌋ : ℤ) : ℚ) - T by linarith) (le_of_lt hgt)
    have hexp : ((⌊T⌋ : ℤ) : ℚ) / 255 * (mx - mn) + mn - v =
        (((⌊T⌋ : ℤ) : ℚ) - T) * (mx - mn) / 255 := by
      field_simp
      linarith [hv, mul_comm (T / 255) (mx - mn)]
    rw [hexp]
    nlinarith [hmul]
  · have hmul := mul_le_mul_of_nonneg_right
      (show ((⌊T⌋ : ℤ) : ℚ) - T ≤ 0 by linarith) (le_of_lt hgt)
    have hexp : ((⌊T⌋ : ℤ) : ℚ) / 255 * (mx - mn) + mn - v =
        (((⌊T⌋ : ℤ) : ℚ) - T) * (mx - mn) / 255 := by
      field_simp
      linarith [hv, mul_comm (T / 255) (mx - mn)]
    rw [hexp]
    nlinarith [hmul]

/-- Decrypting a Classical ciphertext with the same key reduces to
de-normalizing the scaled signal: the XOR mask cancels exactly. -/
theorem classical_decrypt_encrypt (signal : List ℚ) (r x0 : ℚ) :
    classical_chaotic_decrypt (classical_chaotic_encrypt signal r x0).1 r x0
        (classical_chaotic_encrypt signal r x0).2 =
      (scale_signal signal).map
        (fun (b : ℕ) => (b : ℚ) / 255 * (listMax signal - listMin signal) + listMin signal) := by
  simp only [classical_chaotic_encrypt, classical_chaotic_decrypt]
  have hlen_enc : (List.zipWith (· ^^^ ·) (scale_signal signal)
      (xorMask (logistic_map x0 r signal.length))).length = signal.length := by
    rw [List.length_zipWith, scale_signal_length, xorMask_length, logistic_map_length,
      min_self]
  rw [hlen_enc, zipWith_xor_cancel _ _
    (by rw [scale_signal_length, xorMask_length, logistic_map_length])]

/-- Decrypting a Biometric ciphertext with its own sidecar reduces to
de-normalizing the scaled signal: the XOR mask cancels and the inverse
permutation undoes the diffusion. -/
theorem biometric_decrypt_encrypt (signal : List ℚ) (r x0 : ℚ) :
    biometric_decrypt (biometric_encrypt signal r x0).1
        (biometric_encrypt signal r x0).2.1 (biometric_encrypt signal r x0).2.2.1
        (biometric_encrypt signal r x0).2.2.2.1 =
      (scale_signal signal).map
        (fun (b : ℕ) => (b : ℚ) / 255 * (listMax signal - listMin signal) + listMin signal) := by
  simp only [biometric_encrypt, biometric_decrypt]
  have hplen : (argsort (logistic_map x0 r signal.length)).length = signal.length := by
    rw [argsort_length, logistic_map_length]
  have hpermlen : (npIndex (scale_signal signal)
      (argsort (logistic_map x0 r signal.length))).length =
      (xorMask (logistic_map x0 r signal.length)).length := by
    rw [npIndex_length, hplen, xorMask_length, logistic_map_length]
  rw [zipWith_xor_cancel _ _ hpermlen]
  have hp : (argsort (logistic_map x0 r signal.length)).Perm
      (List.range (argsort (logistic_map x0 r signal.length)).length) := by
    rw [hplen]
    have h := argsort_perm (logistic_map x0 r signal.length)
    rw [logistic_map_length] at h
    exact h
  rw [npIndex_argsort_inverse _ _ hp (by rw [scale_signal_length, hplen])]

/-- Element-wise 8-bit round-trip error bound for the de-normalized scaled
signal. -/
theorem scaled_denorm_close (signal : List ℚ) (i : ℕ) (hi : i < signal.length) :
    |((scale_signal signal).map
        (fun (b : ℕ) => (b : ℚ) / 255 * (listMax signal - listMin signal) +
          listMin signal)).getD i 0 - signal.getD i 0| ≤
      (listMax signal - listMin signal) / 255 := by
  have hmem : signal.getD i 0 ∈ signal := by
    rw [List.getD_eq_getElem signal 0 hi]
    exact List.getElem_mem hi
  have h1 : listMin signal ≤ signal.getD i 0 := listMin_le_mem _ _ hmem
  have h2 : signal.getD i 0 ≤ listMax signal := mem_le_listMax _ _ hmem
  rw [getD_map_of_lt (scale_signal signal) _ i 0 0 (by rw [scale_signal_length]; exact hi)]
  by_cases hlt : listMin signal < listMax signal
  · have hscale : (scale_signal signal).getD i 0 =
        toByte ((signal.getD i 0 - listMin signal) /
          (listMax signal - listMin signal) * 255) := by
      simp only [scale_signal, if_pos hlt]
      exact getD_map_of_lt signal _ i 0 0 hi
    rw [hscale]
    exact dequant_error _ _ _ h1 h2 hlt
  · have heq : listMin signal = listMax signal :=
      le_antisymm (le_trans h1 h2) (not_lt.1 hlt)
    have hscale : (scale_signal signal).getD i 0 = 0 := by
      simp only [scale_signal, if_neg hlt]
      rw [List.getD_eq_getElem _ 0 (by simpa using hi)]
      simp
    have hv : signal.getD i 0 = listMin signal := le_antisymm (heq ▸ h2) h1
    rw [hscale, hv, ← heq]
    simp

/-- A constant signal round-trips exactly: zero-fill scaling followed by
de-normalization returns the constant itself. -/
theorem scaled_denorm_const (signal : List ℚ) (hconst : listMin signal = listMax signal) :
    (scale_signal signal).map
        (fun (b : ℕ) => (b : ℚ) / 255 * (listMax signal - listMin signal) + listMin signal) =
      signal := by
  have hnotlt : ¬ listMin signal < listMax signal := by
    rw [hconst]
    exact lt_irrefl _
  simp only [scale_signal, if_neg hnotlt]
  rw [List.map_replicate]
  have hval : ((0 : ℕ) : ℚ) / 255 * (listMax signal - listMin signal) + listMin signal =
      listMin signal := by
    simp
  rw [hval]
  exact (List.eq_replicate_length.2 (fun b hb =>
    le_antisymm (hconst ▸ mem_le_listMax signal b hb) (listMin_le_mem signal b hb))).symm

/-- Claim C1 (confirmed): for every nonempty signal and valid key, decrypting
the ciphertext produced by encrypt with the same key and sidecar returns the
signal within the 8-bit quantization step `(max − min)/255`, element-wise, for
the Classical variant, the Biometric permutation+XOR variant, and the
ML-Enhanced variant (same transform); a constant signal (max = min) encrypts
without failing and decrypts back to the exact constant. -/
theorem claim_C1_roundtrip (signal : List ℚ) (r x0 : ℚ) (hne : signal ≠ [])
    (hr0 : 0 < r) (hr4 : r ≤ 4) (hx0 : 0 < x0) (hx1 : x0 < 1) :
    (∀ i < signal.length,
        |(classical_chaotic_decrypt (classical_chaotic_encrypt signal r x0).1 r x0
            (classical_chaotic_encrypt signal r x0).2).getD i 0 - signal.getD i 0| ≤
          (listMax signal - listMin signal) / 255) ∧
      (∀ i < signal.length,
        |(biometric_decrypt (biometric_encrypt signal r x0).1
            (biometric_encrypt signal r x0).2.1 (biometric_encrypt signal r x0).2.2.1
            (biometric_encrypt signal r x0).2.2.2.1).getD i 0 - signal.getD i 0| ≤
          (listMax signal - listMin signal) / 255) ∧
      (∀ i < signal.length,
        |(biometric_decrypt (ml_enhanced_encrypt signal r x0).1
            (ml_enhanced_encrypt signal r x0).2.1 (ml_enhanced_encrypt signal r x0).2.2.1
            (ml_enhanced_encrypt signal r x0).2.2.2.1).getD i 0 - signal.getD i 0| ≤
          (listMax signal - listMin signal) / 255) ∧
      (listMin signal = listMax signal →
        classical_chaotic_decrypt (classical_chaotic_encrypt signal r x0).1 r x0
            (classical_chaotic_encrypt signal r x0).2 = signal ∧
          biometric_decrypt (biometric_encrypt signal r x0).1
            (biometric_encrypt signal r x0).2.1 (biometric_encrypt signal r x0).2.2.1
            (biometric_encrypt signal r x0).2.2.2.1 = signal) := by
  have hc := classical_decrypt_encrypt signal r x0
  have hb := biometric_decrypt_encrypt signal r x0
  have hm : biometric_decrypt (ml_enhanced_encrypt signal r x0).1
      (ml_enhanced_encrypt signal r x0).2.1 (ml_enhanced_encrypt signal r x0).2.2.1
      (ml_enhanced_encrypt signal r x0).2.2.2.1 =
      (scale_signal signal).map
        (fun (b : ℕ) => (b : ℚ) / 255 * (listMax signal - listMin signal) + listMin signal) :=
    hb
  refine ⟨?_, ?_, ?_, ?_⟩
  · intro i hi
    rw [hc]
    exact scaled_denorm_close signal i hi
  · intro i hi
    rw [hb]
    exact scaled_denorm_close signal i hi
  · intro i hi
    rw [hm]
    exact scaled_denorm_close signal i hi
  · intro hconst
    constructor
    · rw [hc]
      exact scaled_denorm_const signal hconst
    · rw [hb]
      exact scaled_denorm_const signal hconst

/-! ### Attack-loop lemmas (C5, C9, C10) -/

theorem linspace_length (a b : ℚ) (num : ℕ) : (linspace a b num).length = num := by
  rw [linspace, List.length_map, List.length_range]

theorem classical_decrypt_length (enc : List ℕ) (r x0 : ℚ) (range : ℚ × ℚ) :
    (classical_chaotic_decrypt enc r x0 range).length = enc.length := by
  simp only [classical_chaotic_decrypt]
  rw [List.length_map, List.length_zipWith, xorMask_length, logistic_map_length, min_self]

theorem biometric_trial_decrypt_length (enc : List ℕ) (range : ℚ × ℚ) (r x0 : ℚ) :
    (biometric_trial_decrypt enc range r x0).length = enc.length := by
  simp only [biometric_trial_decrypt]
  rw [List.length_map, npIndex_length, argsort_length, argsort_length, logistic_map_length]

theorem sqDev_nonneg (l : List ℚ) : 0 ≤ sqDev l := by
  apply List.sum_nonneg
  intro y hy
  rcases List.mem_map.1 hy with ⟨x, _, rfl⟩
  positivity

theorem corrcoef_ne_raised (x y : List ℚ) (h : x.length = y.length) :
    corrcoef x y ≠ CorrOutcome.raised := by
  rw [corrcoef, if_neg (by simp [h])]
  split <;> simp

theorem corrcoef_nan_left (x y : List ℚ) (h : x.length = y.length) (hx : sqDev x = 0) :
    corrcoef x y = CorrOutcome.nan := by
  rw [corrcoef, if_neg (by simp [h]), if_pos (Or.inl hx)]

section AttackLemmas

variable (reconstruct : ℚ → ℚ → List ℚ) (original_signal : List ℚ)
variable (threshold : ℝ) (max_attempts : ℕ)

theorem attackInner_attempts_le_max (r : ℚ) :
    ∀ (xs : List ℚ) (s : AttackState),
      (∀ x0 ∈ xs, corrcoef original_signal (reconstruct r x0) ≠ CorrOutcome.raised) →
      s.attempts < max_attempts →
      (attackInner reconstruct original_signal threshold max_attempts r xs s).attempts ≤
        max_attempts
  | [], s, _, hs => by
    simpa [attackInner] using hs.le
  | x0 :: rest, s, hne, hs => by
    have hrec : ∀ s' : AttackState, s'.attempts < max_attempts →
        (attackInner reconstruct original_signal threshold max_attempts
          r rest s').attempts ≤ max_attempts :=
      fun s' h => attackInner_attempts_le_max r rest s'
        (fun y hy => hne y (by simp [hy])) h
    simp only [attackInner]
    rcases hcorr : corrcoef original_signal (reconstruct r x0) with _ | _ | c
    · exact absurd hcorr (hne x0 (by simp))
    · by_cases hb : max_attempts ≤ s.attempts + 1
      · simp [hcorr, hb] <;> omega
      · simp [hcorr, hb]
        exact hrec _ (by simp; omega)
    · by_cases hbm : s.best_match < |c|
      · by_cases hth : threshold < |c|
        · simp [hcorr, hbm, hth] <;> omega
        · by_cases hb : max_attempts ≤ s.attempts + 1
          · simp [hcorr, hbm, hth, hb] <;> omega
          · simp [hcorr, hbm, hth, hb]
            exact hrec _ (by simp; omega)
      · by_cases hth : threshold < |c|
        · simp [hcorr, hbm, hth] <;> omega
        · by_cases hb : max_attempts ≤ s.attempts + 1
          · simp [hcorr, hbm, hth, hb] <;> omega
          · simp [hcorr, hbm, hth, hb]
            exact hrec _ (by simp; omega)

theorem attackInner_attempts_le_add (r : ℚ) :
    ∀ (xs : List ℚ) (s : AttackState),
      (attackInner reconstruct original_signal threshold max_attempts r xs s).attempts ≤
        s.attempts + xs.length
  | [], s => by simp [attackInner]
  | x0 :: rest, s => by
    have h1 := attackInner_attempts_le_add r rest
      ({ s with attempts := s.attempts + 1 } : AttackState)
    simp only [attackInner]
    rcases hcorr : corrcoef original_signal (reconstruct r x0) with _ | _ | c
    · simp only [hcorr, List.length_cons] at *
      omega
    · by_cases hb : max_attempts ≤ s.attempts + 1
      · simp only [hcorr, List.length_cons] at *
        simp [hb] <;> omega
      · simp only [hcorr, List.length_cons] at *
        simp [hb] <;> omega
    · by_cases hbm : s.best_match < |c|
      · have h2 := attackInner_attempts_le_add r rest
          (AttackState.mk (s.attempts + 1) s.success (abs c) (some (r, x0)))
        by_cases hth : threshold < |c|
        · simp only [hcorr, List.length_cons] at *
          simp [hbm, hth] <;> omega
        · by_cases hb : max_attempts ≤ s.attempts + 1
          · simp only [hcorr, List.length_cons] at *
            simp [hbm, hth, hb] <;> omega
          · simp only [hcorr, List.length_cons] at *
            simp [hbm, hth, hb] <;> omega
      · by_cases hth : threshold < |c|
        · simp only [hcorr, List.length_cons] at *
          simp [hbm, hth] <;> omega
        · by_cases hb : max_attempts ≤ s.attempts + 1
          · simp only [hcorr, List.length_cons] at *
            simp [hbm, hth, hb] <;> omega
          · simp only [hcorr, List.length_cons] at *
            simp [hbm, hth, hb] <;> omega

theorem attackOuter_attempts_le_max (x0_range : List ℚ) :
    ∀ (rs : List ℚ) (s : AttackState),
      (∀ r ∈ rs, ∀ x0 ∈ x0_range,
        corrcoef original_signal (reconstruct r x0) ≠ CorrOutcome.raised) →
      s.attempts < max_attempts →
      (attackOuter reconstruct original_signal threshold max_attempts x0_range rs s).attempts ≤
        max_attempts
  | [], s, _, hs => by
    simpa [attackOuter] using hs.le
  | r :: rest, s, hne, hs => by
    simp only [attackOuter]
    have hinner := attackInner_attempts_le_max reconstruct original_signal threshold
      max_attempts r x0_range s (hne r (by simp)) hs
    split
    · exact hinner
    · rename_i hstop
      rcases Nat.lt_or_ge (attackInner reconstruct original_signal threshold max_attempts
          r x0_range s).attempts max_attempts with hlt | hge
      · exact attackOuter_attempts_le_max x0_range rest _
          (fun r' hr' => hne r' (by simp [hr'])) hlt
      · exact absurd (Or.inr hge) hstop

theorem attackOuter_attempts_le_add (x0_range : List ℚ) :
    ∀ (rs : List ℚ) (s : AttackState),
      (attackOuter reconstruct original_signal threshold max_attempts x0_range rs s).attempts ≤
        s.attempts + rs.length * x0_range.length
  | [], s => by simp [attackOuter]
  | r :: rest, s => by
    simp only [attackOuter, List.length_cons]
    have hinner := attackInner_attempts_le_add reconstruct original_signal threshold
      max_attempts r x0_range s
    split
    · calc (attackInner reconstruct original_signal threshold max_attempts
          r x0_range s).attempts ≤ s.attempts + x0_range.length := hinner
      _ ≤ s.attempts + (rest.length + 1) * x0_range.length := by
        nlinarith [Nat.zero_le (rest.length * x0_range.length)]
    · have houter := attackOuter_attempts_le_add x0_range rest
        (attackInner reconstruct original_signal threshold max_attempts r x0_range s)
      calc (attackOuter reconstruct original_signal threshold max_attempts x0_range rest
          (attackInner reconstruct original_signal threshold max_attempts
            r x0_range s)).attempts ≤
          (attackInner reconstruct original_signal threshold max_attempts
            r x0_range s).attempts + rest.length * x0_range.length := houter
      _ ≤ s.attempts + x0_range.length + rest.length * x0_range.length := by omega
      _ = s.attempts + (rest.length + 1) * x0_range.length := by ring

end AttackLemmas

theorem mkAttackResult_rate (s : AttackState) (g : ℕ) (hg : 0 < g)
    (hle : s.attempts ≤ g) :
    (mkAttackResult s g).success_rate = (s.attempts : ℚ) / g ∧
      ((mkAttackResult s g).success_rate = 1 ↔ s.attempts = g) ∧
      (mkAttackResult s g).attempts = s.attempts ∧
      (mkAttackResult s g).success_rate ≤ 1 := by
  have hgQ : (0 : ℚ) < (g : ℚ) := by exact_mod_cast hg
  by_cases h : s.attempts < g
  · have hlt : ((s.attempts : ℚ)) / g < 1 := by
      rw [div_lt_one hgQ]
      exact_mod_cast h
    refine ⟨by simp [mkAttackResult, if_pos h], ?_, rfl, ?_⟩
    · simp only [mkAttackResult, if_pos h]
      constructor
      · intro h1
        exact absurd h1 (ne_of_lt hlt)
      · intro h1
        omega
    · simp only [mkAttackResult, if_pos h]
      exact hlt.le
  · have hexact : s.attempts = g := le_antisymm hle (not_lt.1 h)
    refine ⟨?_, ?_, rfl, ?_⟩
    · simp only [mkAttackResult, hexact]
      rw [if_neg (lt_irrefl g), div_self (ne_of_gt hgQ)]
    · simp [mkAttackResult, if_neg h, hexact]
    · simp [mkAttackResult, if_neg h]

theorem attackOuter_budget (reconstruct : ℚ → ℚ → List ℚ) (orig : List ℚ) (th : ℝ)
    (maxA : ℕ) (xs rs : List ℚ) (hmax : 1 ≤ maxA)
    (hnoerr : ∀ r x0 : ℚ, corrcoef orig (reconstruct r x0) ≠ CorrOutcome.raised) :
    (attackOuter reconstruct orig th maxA xs rs ⟨0, false, 0, none⟩).attempts ≤ maxA ∧
      (attackOuter reconstruct orig th maxA xs rs ⟨0, false, 0, none⟩).attempts ≤
        rs.length * xs.length := by
  constructor
  · exact attackOuter_attempts_le_max reconstruct orig th maxA xs rs _
      (fun r _ x0 _ => hnoerr r x0) (by simp; omega)
  · simpa using attackOuter_attempts_le_add reconstruct orig th maxA xs rs ⟨0, false, 0, none⟩

/-- Claim C5 (amended): for every `max_attempts ≥ 1` and plaintext/ciphertext
of equal length (so that no trial raises), each brute-force attack returns an
`AttackResult` whose `attempts` never exceeds `max_attempts` nor the grid
size, whose `success_rate` equals `attempts / grid_size` (hence is capped at
1.0), and whose `success_rate` equals 1.0 exactly when the whole grid was
evaluated. -/
theorem claim_C5_attack_budget (encrypted_signal : List ℕ) (original_signal : List ℚ)
    (signal_range : ℚ × ℚ) (max_attempts : ℕ) (hmax : 1 ≤ max_attempts)
    (hlen : original_signal.length = encrypted_signal.length) :
    ((brute_force_attack_classical encrypted_signal original_signal signal_range
          max_attempts).attempts ≤ max_attempts ∧
        (brute_force_attack_classical encrypted_signal original_signal signal_range
          max_attempts).attempts ≤ 200 ∧
        (brute_force_attack_classical encrypted_signal original_signal signal_range
            max_attempts).success_rate =
          ((brute_force_attack_classical encrypted_signal original_signal signal_range
            max_attempts).attempts : ℚ) / 200 ∧
        (brute_force_attack_classical encrypted_signal original_signal signal_range
            max_attempts).success_rate ≤ 1 ∧
        ((brute_force_attack_classical encrypted_signal original_signal signal_range
            max_attempts).success_rate = 1 ↔
          (brute_force_attack_classical encrypted_signal original_signal signal_range
            max_attempts).attempts = 200)) ∧
      ((brute_force_attack_biometric encrypted_signal original_signal signal_range
          max_attempts).attempts ≤ max_attempts ∧
        (brute_force_attack_biometric encrypted_signal original_signal signal_range
          max_attempts).attempts ≤ 400 ∧
        (brute_force_attack_biometric encrypted_signal original_signal signal_range
            max_attempts).success_rate =
          ((brute_force_attack_biometric encrypted_signal original_signal signal_range
            max_attempts).attempts : ℚ) / 400 ∧
        (brute_force_attack_biometric encrypted_signal original_signal signal_range
            max_attempts).success_rate ≤ 1 ∧
        ((brute_force_attack_biometric encrypted_signal original_signal signal_range
            max_attempts).success_rate = 1 ↔
          (brute_force_attack_biometric encrypted_signal original_signal signal_range
            max_attempts).attempts = 400)) ∧
      ((brute_force_attack_ml_enhanced encrypted_signal original_signal signal_range
          max_attempts).attempts ≤ max_attempts ∧
        (brute_force_attack_ml_enhanced encrypted_signal original_signal signal_range
          max_attempts).attempts ≤ 600 ∧
        (brute_force_attack_ml_enhanced encrypted_signal original_signal signal_range
            max_attempts).success_rate =
          ((brute_force_attack_ml_enhanced encrypted_signal original_signal signal_range
            max_attempts).attempts : ℚ) / 600 ∧
        (brute_force_attack_ml_enhanced encrypted_signal original_signal signal_range
            max_attempts).success_rate ≤ 1 ∧
        ((brute_force_attack_ml_enhanced encrypted_signal original_signal signal_range
            max_attempts).success_rate = 1 ↔
          (brute_force_attack_ml_enhanced encrypted_signal original_signal signal_range
            max_attempts).attempts = 600)) := by
  have hno_c : ∀ r x0 : ℚ, corrcoef original_signal
      (classical_chaotic_decrypt encrypted_signal r x0 signal_range) ≠
      CorrOutcome.raised := fun r x0 =>
    corrcoef_ne_raised _ _ (by rw [classical_decrypt_length]; exact hlen)
  have hno_b : ∀ r x0 : ℚ, corrcoef original_signal
      (biometric_trial_decrypt encrypted_signal signal_range r x0) ≠
      CorrOutcome.raised := fun r x0 =>
    corrcoef_ne_raised _ _ (by rw [biometric_trial_decrypt_length]; exact hlen)
  have hc := attackOuter_budget
    (fun r x0 => classical_chaotic_decrypt encrypted_signal r x0 signal_range)
    original_signal (7/10 : ℝ) max_attempts (linspace (1/10) (9/10) 10)
    (linspace (7/2) 4 20) hmax hno_c
  have hb := attackOuter_budget
    (fun r x0 => biometric_trial_decrypt encrypted_signal signal_range r x0)
    original_signal (8/10 : ℝ) max_attempts (linspace (1/10) (9/10) 16)
    (linspace (7/2) 4 25) hmax hno_b
  have hm := attackOuter_budget
    (fun r x0 => biometric_trial_decrypt encrypted_signal signal_range r x0)
    original_signal (85/100 : ℝ) max_attempts (linspace (1/10) (9/10) 20)
    (linspace (7/2) 4 30) hmax hno_b
  rw [linspace_length, linspace_length,
    show (20 : ℕ) * 10 = 200 by norm_num] at hc
  rw [linspace_length, linspace_length,
    show (25 : ℕ) * 16 = 400 by norm_num] at hb
  rw [linspace_length, linspace_length,
    show (30 : ℕ) * 20 = 600 by norm_num] at hm
  have hcs : brute_force_attack_classical encrypted_signal original_signal signal_range
      max_attempts = mkAttackResult
        (attackOuter (fun r x0 => classical_chaotic_decrypt encrypted_signal r x0
          signal_range) original_signal (7/10 : ℝ) max_attempts
          (linspace (1/10) (9/10) 10) (linspace (7/2) 4 20) ⟨0, false, 0, none⟩) 200 := by
    simp only [brute_force_attack_classical, linspace_length]
  have hbs : brute_force_attack_biometric encrypted_signal original_signal signal_range
      max_attempts = mkAttackResult
        (attackOuter (fun r x0 => biometric_trial_decrypt encrypted_signal signal_range
          r x0) original_signal (8/10 : ℝ) max_attempts
          (linspace (1/10) (9/10) 16) (linspace (7/2) 4 25) ⟨0, false, 0, none⟩) 400 := by
    simp only [brute_force_attack_biometric, linspace_length]
  have hms : brute_force_attack_ml_enhanced encrypted_signal original_signal signal_range
      max_attempts = mkAttackResult
        (attackOuter (fun r x0 => biometric_trial_decrypt encrypted_signal signal_range
          r x0) original_signal (85/100 : ℝ) max_attempts
          (linspace (1/10) (9/10) 20) (linspace (7/2) 4 30) ⟨0, false, 0, none⟩) 600 := by
    simp only [brute_force_attack_ml_enhanced, linspace_length]
  rw [hcs, hbs, hms]
  have hrc := mkAttackResult_rate _ 200 (by norm_num) hc.2
  have hrb := mkAttackResult_rate _ 400 (by norm_num) hb.2
  have hrm := mkAttackResult_rate _ 600 (by norm_num) hm.2
  refine ⟨⟨?_, ?_, ?_, ?_, ?_⟩, ⟨?_, ?_, ?_, ?_, ?_⟩, ⟨?_, ?_, ?_, ?_, ?_⟩⟩
  · rw [hrc.2.2.1]; exact hc.1
  · rw [hrc.2.2.1]; exact hc.2
  · rw [hrc.1, hrc.2.2.1]; norm_num
  · exact hrc.2.2.2
  · rw [hrc.2.2.1]; exact hrc.2.1
  · rw [hrb.2.2.1]; exact hb.1
  · rw [hrb.2.2.1]; exact hb.2
  · rw [hrb.1, hrb.2.2.1]; norm_num
  · exact hrb.2.2.2
  · rw [hrb.2.2.1]; exact hrb.2.1
  · rw [hrm.2.2.1]; exact hm.1
  · rw [hrm.2.2.1]; exact hm.2
  · rw [hrm.1, hrm.2.2.1]; norm_num
  · exact hrm.2.2.2
  · rw [hrm.2.2.1]; exact hrm.2.1

/-- Witness for C5 at `encrypted = [0,0]`, `original = [1,2]`,
`max_attempts = 1`. -/
theorem claim_C5_witness :
    (1 : ℕ) ≤ 1 ∧ ([1, 2] : List ℚ).length = ([0, 0] : List ℕ).length ∧
      (brute_force_attack_classical [0, 0] [1, 2] (0, 1) 1).attempts ≤ 1 :=
  ⟨le_refl 1, rfl,
    ((claim_C5_attack_budget [0, 0] [1, 2] (0, 1) 1 (le_refl 1) rfl).1).1⟩

theorem attackInner_nan_exhausted (reconstruct : ℚ → ℚ → List ℚ) (orig : List ℚ)
    (th : ℝ) (maxA : ℕ) (r x0 : ℚ) (rest : List ℚ) (s : AttackState)
    (hnan : corrcoef orig (reconstruct r x0) = CorrOutcome.nan)
    (hb : maxA ≤ s.attempts + 1) :
    attackInner reconstruct orig th maxA r (x0 :: rest) s =
      { s with attempts := s.attempts + 1 } := by
  simp only [attackInner, hnan]
  rw [if_pos (by simpa using hb)]

/-- Claim C5 (counterexample): with `max_attempts = 0` the attack still runs
its first trial, so the returned `attempts` is `1 > 0`: the `attempts`
field can exceed the configured budget. -/
theorem claim_C5_counterexample :
    (brute_force_attack_classical [0, 0] [2, 2] (0, 1) 0).attempts = 1 ∧
      ¬ ((brute_force_attack_classical [0, 0] [2, 2] (0, 1) 0).attempts ≤ 0) := by
  have hnan : ∀ rr xx : ℚ,
      corrcoef [2, 2] (classical_chaotic_decrypt [0, 0] rr xx (0, 1)) =
        CorrOutcome.nan := by
    intro rr xx
    apply corrcoef_nan_left
    · simp [classical_decrypt_length]
    · norm_num [sqDev, mean]
  have h20 := linspace_length (7/2) 4 20
  have h10 := linspace_length (1/10) (9/10) 10
  obtain ⟨r0, rs', hr⟩ := List.exists_cons_of_ne_nil
    (show linspace (7/2) 4 20 ≠ [] from fun hh => by rw [hh] at h20; simp at h20)
  obtain ⟨y0, ys', hy⟩ := List.exists_cons_of_ne_nil
    (show linspace (1/10) (9/10) 10 ≠ [] from fun hh => by rw [hh] at h10; simp at h10)
  have hmain : (brute_force_attack_classical [0, 0] [2, 2] (0, 1) 0).attempts =
      (attackOuter (fun r x0 => classical_chaotic_decrypt [0, 0] r x0 (0, 1)) [2, 2]
        (7/10 : ℝ) 0 (linspace (1/10) (9/10) 10) (linspace (7/2) 4 20)
        ⟨0, false, 0, none⟩).attempts := rfl
  have h1 : (brute_force_attack_classical [0, 0] [2, 2] (0, 1) 0).attempts = 1 := by
    rw [hmain, hr, hy]
    simp only [attackOuter]
    rw [attackInner_nan_exhausted _ _ _ _ _ _ _ _ (hnan r0 y0) (Nat.zero_le _)]
    rw [if_pos (Or.inr (Nat.zero_le _))]
  exact ⟨h1, by omega⟩

/-- Claim C9 (confirmed): a trial whose correlation is undefined (NaN) counts
toward `attempts`, never sets `success`, never touches `best_match` or
`best_params`, never aborts the outer search, and — while the budget is not
exhausted — the search continues with the next trial of the inner loop. -/
theorem claim_C9_undefined_correlation (reconstruct : ℚ → ℚ → List ℚ)
    (original_signal : List ℚ) (threshold : ℝ) (max_attempts : ℕ) (r x0 : ℚ)
    (rest : List ℚ) (s : AttackState)
    (hnan : corrcoef original_signal (reconstruct r x0) = CorrOutcome.nan)
    (hbudget : s.attempts + 1 < max_attempts) :
    attackInner reconstruct original_signal threshold max_attempts r (x0 :: rest) s =
      attackInner reconstruct original_signal threshold max_attempts r rest
        (AttackState.mk (s.attempts + 1) s.success s.best_match s.best_params) := by
  simp only [attackInner, hnan]
  rw [if_neg (by simp; omega)]

/-- Witness for C9: a constant original signal makes every trial's
correlation undefined; the first Classical trial at `r = 3.5`, `x0 = 0.1`
with budget 5 just increments `attempts` and moves on. -/
theorem claim_C9_witness :
    corrcoef [2, 2] (classical_chaotic_decrypt [0, 0] (7/2) (1/10) (0, 1)) =
        CorrOutcome.nan ∧
      (0 : ℕ) + 1 < 5 ∧
      attackInner (fun rr xx => classical_chaotic_decrypt [0, 0] rr xx (0, 1)) [2, 2]
          (7/10 : ℝ) 5 (7/2) [1/10] ⟨0, false, 0, none⟩ =
        attackInner (fun rr xx => classical_chaotic_decrypt [0, 0] rr xx (0, 1)) [2, 2]
          (7/10 : ℝ) 5 (7/2) [] (AttackState.mk (0 + 1) false 0 none) := by
  have hnan : corrcoef [2, 2]
      (classical_chaotic_decrypt [0, 0] (7/2) (1/10) (0, 1)) = CorrOutcome.nan := by
    apply corrcoef_nan_left
    · simp [classical_decrypt_length]
    · norm_num [sqDev, mean]
  exact ⟨hnan, by omega,
    claim_C9_undefined_correlation
      (fun rr xx => classical_chaotic_decrypt [0, 0] rr xx (0, 1)) [2, 2] (7/10 : ℝ) 5
      (7/2) (1/10) [] ⟨0, false, 0, none⟩ hnan ((by norm_num : (0 : ℕ) + 1 < 5))⟩

/-! ### Pearson correlation is bounded by 1 (Cauchy-Schwarz), for C10 -/

theorem list_sum_eq_range_sum (f : ℚ × ℚ → ℚ) :
    ∀ l : List (ℚ × ℚ), (l.map f).sum = ∑ i in Finset.range l.length, f (l.getD i (0, 0))
  | [] => by simp
  | a :: t => by
    rw [List.map_cons, List.sum_cons, List.length_cons, Finset.sum_range_succ']
    simp only [List.getD_cons_succ, List.getD_cons_zero]
    rw [list_sum_eq_range_sum f t]
    ring

theorem list_cauchy_schwarz (l : List (ℚ × ℚ)) :
    ((l.map (fun p => p.1 * p.2)).sum) ^ 2 ≤
      ((l.map (fun p => p.1 ^ 2)).sum) * ((l.map (fun p => p.2 ^ 2)).sum) := by
  rw [list_sum_eq_range_sum, list_sum_eq_range_sum, list_sum_eq_range_sum]
  exact Finset.sum_mul_sq_le_sq_mul_sq (Finset.range l.length)
    (fun i => (l.getD i (0, 0)).1) (fun i => (l.getD i (0, 0)).2)

theorem zip_map_fst_sum (g : ℚ → ℚ) :
    ∀ (x y : List ℚ), x.length = y.length →
      ((x.zip y).map (fun p => g p.1)).sum = (x.map g).sum
  | [], [], _ => rfl
  | [], _ :: _, h => by simp at h
  | _ :: _, [], h => by simp at h
  | a :: x, b :: y, h => by
    simp only [List.zip_cons_cons, List.map_cons, List.sum_cons]
    rw [zip_map_fst_sum g x y (by simpa using h)]

theorem zip_map_snd_sum (g : ℚ → ℚ) :
    ∀ (x y : List ℚ), x.length = y.length →
      ((x.zip y).map (fun p => g p.2)).sum = (y.map g).sum
  | [], [], _ => rfl
  | [], _ :: _, h => by simp at h
  | _ :: _, [], h => by simp at h
  | a :: x, b :: y, h => by
    simp only [List.zip_cons_cons, List.map_cons, List.sum_cons]
    rw [zip_map_snd_sum g x y (by simpa using h)]

theorem covSum_sq_le (x y : List ℚ) (h : x.length = y.length) :
    covSum x y ^ 2 ≤ sqDev x * sqDev y := by
  have hx : sqDev x = ((x.zip y).map (fun p => (p.1 - mean x) ^ 2)).sum :=
    (zip_map_fst_sum (fun v => (v - mean x) ^ 2) x y h).symm
  have hy : sqDev y = ((x.zip y).map (fun p => (p.2 - mean y) ^ 2)).sum :=
    (zip_map_snd_sum (fun v => (v - mean y) ^ 2) x y h).symm
  rw [hx, hy, covSum]
  have hcs := list_cauchy_schwarz
    ((x.zip y).map (fun p => (p.1 - mean x, p.2 - mean y)))
  simpa [List.map_map, Function.comp] using hcs

theorem corrcoef_val_abs_le_one (x y : List ℚ) (c : ℝ)
    (h : corrcoef x y = CorrOutcome.val c) : |c| ≤ 1 := by
  rw [corrcoef] at h
  by_cases h1 : x.length ≠ y.length
  · rw [if_pos h1] at h
    simp at h
  · rw [if_neg h1] at h
    by_cases h2 : sqDev x = 0 ∨ sqDev y = 0
    · rw [if_pos h2] at h
      simp at h
    · rw [if_neg h2] at h
      have hc : (covSum x y : ℝ) / Real.sqrt ((sqDev x : ℝ) * (sqDev y : ℝ)) = c := by
        injection h
      push_neg at h1 h2
      have hx0 : 0 < sqDev x := lt_of_le_of_ne (sqDev_nonneg x) (Ne.symm h2.1)
      have hy0 : 0 < sqDev y := lt_of_le_of_ne (sqDev_nonneg y) (Ne.symm h2.2)
      have hprod : (0 : ℝ) < (sqDev x : ℝ) * (sqDev y : ℝ) :=
        mul_pos (by exact_mod_cast hx0) (by exact_mod_cast hy0)
      have hcs : ((covSum x y : ℝ)) ^ 2 ≤ (sqDev x : ℝ) * (sqDev y : ℝ) := by
        exact_mod_cast covSum_sq_le x y h1
      have hsqrt : |((covSum x y : ℝ))| ≤ Real.sqrt ((sqDev x : ℝ) * (sqDev y : ℝ)) := by
        rw [← Real.sqrt_sq_eq_abs]
        exact Real.sqrt_le_sqrt hcs
      rw [← hc, abs_div, abs_of_nonneg (Real.sqrt_nonneg _),
        div_le_one (Real.sqrt_pos.2 hprod)]
      exact hsqrt

theorem bestFold_in_unit (reconstruct : ℚ → ℚ → List ℚ) (orig : List ℚ) :
    ∀ (ts : List (ℚ × ℚ)) (m : ℝ), 0 ≤ m → m ≤ 1 →
      0 ≤ bestFold reconstruct orig ts m ∧ bestFold reconstruct orig ts m ≤ 1
  | [], m, h0, h1 => ⟨h0, h1⟩
  | t :: ts, m, h0, h1 => by
    show 0 ≤ bestFold reconstruct orig ts _ ∧ bestFold reconstruct orig ts _ ≤ 1
    rcases hcorr : corrcoef orig (reconstruct t.1 t.2) with _ | _ | c
    · simp only [hcorr]
      exact bestFold_in_unit reconstruct orig ts m h0 h1
    · simp only [hcorr]
      exact bestFold_in_unit reconstruct orig ts m h0 h1
    · simp only [hcorr]
      by_cases hm : m < |c|
      · rw [if_pos hm]
        exact bestFold_in_unit reconstruct orig ts (|c|) (abs_nonneg c)
          (corrcoef_val_abs_le_one orig (reconstruct t.1 t.2) c hcorr)
      · rw [if_neg hm]
        exact bestFold_in_unit reconstruct orig ts m h0 h1

theorem bestFold_append (reconstruct : ℚ → ℚ → List ℚ) (orig : List ℚ)
    (a b : List (ℚ × ℚ)) (m : ℝ) :
    bestFold reconstruct orig (a ++ b) m =
      bestFold reconstruct orig b (bestFold reconstruct orig a m) := by
  simp [bestFold, List.foldl_append]

theorem bestFold_cons (reconstruct : ℚ → ℚ → List ℚ) (orig : List ℚ) (t : ℚ × ℚ)
    (ts : List (ℚ × ℚ)) (m : ℝ) :
    bestFold reconstruct orig (t :: ts) m =
      bestFold reconstruct orig ts
        (match corrcoef orig (reconstruct t.1 t.2) with
          | CorrOutcome.val c => if m < |c| then |c| else m
          | _ => m) :=
  rfl

theorem bestFold_cons_raised (reconstruct : ℚ → ℚ → List ℚ) (orig : List ℚ)
    (t : ℚ × ℚ) (ts : List (ℚ × ℚ)) (m : ℝ)
    (h : corrcoef orig (reconstruct t.1 t.2) = CorrOutcome.raised) :
    bestFold reconstruct orig (t :: ts) m = bestFold reconstruct orig ts m := by
  rw [bestFold_cons]
  simp only [h]

theorem bestFold_cons_nan (reconstruct : ℚ → ℚ → List ℚ) (orig : List ℚ)
    (t : ℚ × ℚ) (ts : List (ℚ × ℚ)) (m : ℝ)
    (h : corrcoef orig (reconstruct t.1 t.2) = CorrOutcome.nan) :
    bestFold reconstruct orig (t :: ts) m = bestFold reconstruct orig ts m := by
  rw [bestFold_cons]
  simp only [h]

theorem bestFold_cons_val (reconstruct : ℚ → ℚ → List ℚ) (orig : List ℚ)
    (t : ℚ × ℚ) (ts : List (ℚ × ℚ)) (m : ℝ) (c : ℝ)
    (h : corrcoef orig (reconstruct t.1 t.2) = CorrOutcome.val c) :
    bestFold reconstruct orig (t :: ts) m =
      bestFold reconstruct orig ts (if m < |c| then |c| else m) := by
  rw [bestFold_cons]
  simp only [h]

section AttackSpec

variable (reconstruct : ℚ → ℚ → List ℚ) (original_signal : List ℚ)
variable (threshold : ℝ) (max_attempts : ℕ)

/-- Full characterization of one inner-loop run: it evaluates some prefix of
its trial list, `attempts` counts exactly the evaluated trials, `best_match`
is the running max of `abs(corr)` over that prefix, and the prefix is proper
only when the loop stopped (success or budget). -/
theorem attackInner_spec (r : ℚ) :
    ∀ (xs : List ℚ) (s : AttackState),
      ∃ k, k ≤ xs.length ∧
        (attackInner reconstruct original_signal threshold max_attempts r xs s).attempts =
          s.attempts + k ∧
        (attackInner reconstruct original_signal threshold max_attempts
            r xs s).best_match =
          bestFold reconstruct original_signal ((xs.take k).map (fun x0 => (r, x0)))
            s.best_match ∧
        (¬((attackInner reconstruct original_signal threshold max_attempts
              r xs s).success = true ∨
            max_attempts ≤ (attackInner reconstruct original_signal threshold max_attempts
              r xs s).attempts) →
          k = xs.length)
  | [], s =>
    ⟨0, by simp, by simp [attackInner], by simp [attackInner, bestFold], by simp⟩
  | x0 :: rest, s => by
    rcases hcorr : corrcoef original_signal (reconstruct r x0) with _ | _ | c
    · -- raised: continue without budget check
      have hres : attackInner reconstruct original_signal threshold max_attempts
          r (x0 :: rest) s =
          attackInner reconstruct original_signal threshold max_attempts r rest
            (AttackState.mk (s.attempts + 1) s.success s.best_match s.best_params) := by
        simp [attackInner, hcorr]
      obtain ⟨k, hk, ha, hb, hf⟩ := attackInner_spec r rest
        (AttackState.mk (s.attempts + 1) s.success s.best_match s.best_params)
      refine ⟨k + 1, by simpa using Nat.succ_le_succ hk, ?_, ?_, ?_⟩
      · rw [hres, ha]
        simp
        omega
      · rw [hres, hb, List.take_succ_cons, List.map_cons,
          bestFold_cons_raised _ _ _ _ _ (by simpa using hcorr)]
      · intro hcon
        rw [hres] at hcon
        rw [hf hcon, List.length_cons]
    · -- nan
      by_cases hb' : max_attempts ≤ s.attempts + 1
      · have hres : attackInner reconstruct original_signal threshold max_attempts
            r (x0 :: rest) s =
            AttackState.mk (s.attempts + 1) s.success s.best_match s.best_params := by
          simp [attackInner, hcorr, hb']
        refine ⟨1, by simp, by rw [hres], ?_, ?_⟩
        · rw [hres, List.take_succ_cons, List.take_zero, List.map_cons, List.map_nil,
            bestFold_cons_nan _ _ _ _ _ (by simpa using hcorr)]
          rfl
        · intro hcon
          rw [hres] at hcon
          exact absurd (Or.inr (by simpa using hb')) hcon
      · have hres : attackInner reconstruct original_signal threshold max_attempts
            r (x0 :: rest) s =
            attackInner reconstruct original_signal threshold max_attempts r rest
              (AttackState.mk (s.attempts + 1) s.success s.best_match s.best_params) := by
          simp [attackInner, hcorr, hb']
        obtain ⟨k, hk, ha, hbb, hf⟩ := attackInner_spec r rest
          (AttackState.mk (s.attempts + 1) s.success s.best_match s.best_params)
        refine ⟨k + 1, by simpa using Nat.succ_le_succ hk, ?_, ?_, ?_⟩
        · rw [hres, ha]
          simp
          omega
        · rw [hres, hbb, List.take_succ_cons, List.map_cons,
            bestFold_cons_nan _ _ _ _ _ (by simpa using hcorr)]
        · intro hcon
          rw [hres] at hcon
          rw [hf hcon, List.length_cons]
    · -- defined correlation
      by_cases hbm : s.best_match < |c|
      · by_cases hth : threshold < |c|
        · have hres : attackInner reconstruct original_signal threshold max_attempts
              r (x0 :: rest) s =
              AttackState.mk (s.attempts + 1) true (|c|) (some (r, x0)) := by
            simp [attackInner, hcorr, hbm, hth]
          refine ⟨1, by simp, by rw [hres], ?_, ?_⟩
          · rw [hres, List.take_succ_cons, List.take_zero, List.map_cons, List.map_nil,
              bestFold_cons_val _ _ _ _ _ c (by simpa using hcorr)]
            simp [bestFold, hbm]
          · intro hcon
            rw [hres] at hcon
            exact absurd (Or.inl rfl) hcon
        · by_cases hb' : max_attempts ≤ s.attempts + 1
          · have hres : attackInner reconstruct original_signal threshold max_attempts
                r (x0 :: rest) s =
                AttackState.mk (s.attempts + 1) s.success (|c|) (some (r, x0)) := by
              simp [attackInner, hcorr, hbm, hth, hb']
            refine ⟨1, by simp, by rw [hres], ?_, ?_⟩
            · rw [hres, List.take_succ_cons, List.take_zero, List.map_cons, List.map_nil,
                bestFold_cons_val _ _ _ _ _ c (by simpa using hcorr)]
              simp [bestFold, hbm]
            · intro hcon
              rw [hres] at hcon
              exact absurd (Or.inr (by simpa using hb')) hcon
          · have hres : attackInner reconstruct original_signal threshold max_attempts
                r (x0 :: rest) s =
                attackInner reconstruct original_signal threshold max_attempts r rest
                  (AttackState.mk (s.attempts + 1) s.success (|c|) (some (r, x0))) := by
              simp [attackInner, hcorr, hbm, hth, hb']
            obtain ⟨k, hk, ha, hbb, hf⟩ := attackInner_spec r rest
              (AttackState.mk (s.attempts + 1) s.success (|c|) (some (r, x0)))
            refine ⟨k + 1, by simpa using Nat.succ_le_succ hk, ?_, ?_, ?_⟩
            · rw [hres, ha]
              simp
              omega
            · rw [hres, hbb, List.take_succ_cons, List.map_cons,
                bestFold_cons_val _ _ _ _ _ c (by simpa using hcorr)]
              simp [hbm]
            · intro hcon
              rw [hres] at hcon
              rw [hf hcon, List.length_cons]
      · by_cases hth : threshold < |c|
        · have hres : attackInner reconstruct original_signal threshold max_attempts
              r (x0 :: rest) s =
              AttackState.mk (s.attempts + 1) true s.best_match s.best_params := by
            simp [attackInner, hcorr, hbm, hth]
          refine ⟨1, by simp, by rw [hres], ?_, ?_⟩
          · rw [hres, List.take_succ_cons, List.take_zero, List.map_cons, List.map_nil,
              bestFold_cons_val _ _ _ _ _ c (by simpa using hcorr)]
            simp [bestFold, hbm]
          · intro hcon
            rw [hres] at hcon
            exact absurd (Or.inl rfl) hcon
        · by_cases hb' : max_attempts ≤ s.attempts + 1
          · have hres : attackInner reconstruct original_signal threshold max_attempts
                r (x0 :: rest) s =
                AttackState.mk (s.attempts + 1) s.success s.best_match s.best_params := by
              simp [attackInner, hcorr, hbm, hth, hb']
            refine ⟨1, by simp, by rw [hres], ?_, ?_⟩
            · rw [hres, List.take_succ_cons, List.take_zero, List.map_cons, List.map_nil,
                bestFold_cons_val _ _ _ _ _ c (by simpa using hcorr)]
              simp [bestFold, hbm]
            · intro hcon
              rw [hres] at hcon
              exact absurd (Or.inr (by simpa using hb')) hcon
          · have hres : attackInner reconstruct original_signal threshold max_attempts
                r (x0 :: rest) s =
                attackInner reconstruct original_signal threshold max_attempts r rest
                  (AttackState.mk (s.attempts + 1) s.success s.best_match
                    s.best_params) := by
              simp [attackInner, hcorr, hbm, hth, hb']
            obtain ⟨k, hk, ha, hbb, hf⟩ := attackInner_spec r rest
              (AttackState.mk (s.attempts + 1) s.success s.best_match s.best_params)
            refine ⟨k + 1, by simpa using Nat.succ_le_succ hk, ?_, ?_, ?_⟩
            · rw [hres, ha]
              simp
              omega
            · rw [hres, hbb, List.take_succ_cons, List.map_cons,
                bestFold_cons_val _ _ _ _ _ c (by simpa using hcorr)]
              simp [hbm]
            · intro hcon
              rw [hres] at hcon
              rw [hf hcon, List.length_cons]

/-- If `success` was set, `best_match` exceeds the threshold (invariant of the
inner loop). -/
theorem attackInner_success_inv (r : ℚ) :
    ∀ (xs : List ℚ) (s : AttackState),
      (s.success = true → threshold < s.best_match) →
      (attackInner reconstruct original_signal threshold max_attempts r xs s).success =
        true →
      threshold <
        (attackInner reconstruct original_signal threshold max_attempts r xs s).best_match
  | [], s, hs => hs
  | x0 :: rest, s, hs => by
    rcases hcorr : corrcoef original_signal (reconstruct r x0) with _ | _ | c
    · have hres : attackInner reconstruct original_signal threshold max_attempts
          r (x0 :: rest) s =
          attackInner reconstruct original_signal threshold max_attempts r rest
            (AttackState.mk (s.attempts + 1) s.success s.best_match s.best_params) := by
        simp [attackInner, hcorr]
      rw [hres]
      exact attackInner_success_inv r rest _ hs
    · by_cases hb' : max_attempts ≤ s.attempts + 1
      · have hres : attackInner reconstruct original_signal threshold max_attempts
            r (x0 :: rest) s =
            AttackState.mk (s.attempts + 1) s.success s.best_match s.best_params := by
          simp [attackInner, hcorr, hb']
        rw [hres]
        exact hs
      · have hres : attackInner reconstruct original_signal threshold max_attempts
            r (x0 :: rest) s =
            attackInner reconstruct original_signal threshold max_attempts r rest
              (AttackState.mk (s.attempts + 1) s.success s.best_match s.best_params) := by
          simp [attackInner, hcorr, hb']
        rw [hres]
        exact attackInner_success_inv r rest _ hs
    · by_cases hbm : s.best_match < |c|
      · by_cases hth : threshold < |c|
        · have hres : attackInner reconstruct original_signal threshold max_attempts
              r (x0 :: rest) s =
              AttackState.mk (s.attempts + 1) true (|c|) (some (r, x0)) := by
            simp [attackInner, hcorr, hbm, hth]
          rw [hres]
          exact fun _ => hth
        · by_cases hb' : max_attempts ≤ s.attempts + 1
          · have hres : attackInner reconstruct original_signal threshold max_attempts
                r (x0 :: rest) s =
                AttackState.mk (s.attempts + 1) s.success (|c|) (some (r, x0)) := by
              simp [attackInner, hcorr, hbm, hth, hb']
            rw [hres]
            exact fun h => lt_trans (hs h) hbm
          · have hres : attackInner reconstruct original_signal threshold max_attempts
                r (x0 :: rest) s =
                attackInner reconstruct original_signal threshold max_attempts r rest
                  (AttackState.mk (s.attempts + 1) s.success (|c|) (some (r, x0))) := by
              simp [attackInner, hcorr, hbm, hth, hb']
            rw [hres]
            exact attackInner_success_inv r rest _ (fun h => lt_trans (hs h) hbm)
      · by_cases hth : threshold < |c|
        · have hres : attackInner reconstruct original_signal threshold max_attempts
              r (x0 :: rest) s =
              AttackState.mk (s.attempts + 1) true s.best_match s.best_params := by
            simp [attackInner, hcorr, hbm, hth]
          rw [hres]
          exact fun _ => lt_of_lt_of_le hth (not_lt.1 hbm)
        · by_cases hb' : max_attempts ≤ s.attempts + 1
          · have hres : attackInner reconstruct original_signal threshold max_attempts
                r (x0 :: rest) s =
                AttackState.mk (s.attempts + 1) s.success s.best_match s.best_params := by
              simp [attackInner, hcorr, hbm, hth, hb']
            rw [hres]
            exact hs
          · have hres : attackInner reconstruct original_signal threshold max_attempts
                r (x0 :: rest) s =
                attackInner reconstruct original_signal threshold max_attempts r rest
                  (AttackState.mk (s.attempts + 1) s.success s.best_match
                    s.best_params) := by
              simp [attackInner, hcorr, hbm, hth, hb']
            rw [hres]
            exact attackInner_success_inv r rest _ hs

/-- If `best_params` is set, it is the pair whose trial achieved exactly
`best_match` (invariant of the inner loop). -/
theorem attackInner_params_inv (r : ℚ) :
    ∀ (xs : List ℚ) (s : AttackState),
      (∀ p : ℚ × ℚ, s.best_params = some p →
        ∃ c, corrcoef original_signal (reconstruct p.1 p.2) = CorrOutcome.val c ∧
          |c| = s.best_match) →
      ∀ p : ℚ × ℚ,
        (attackInner reconstruct original_signal threshold max_attempts
          r xs s).best_params = some p →
        ∃ c, corrcoef original_signal (reconstruct p.1 p.2) = CorrOutcome.val c ∧
          |c| = (attackInner reconstruct original_signal threshold max_attempts
            r xs s).best_match
  | [], s, hs => hs
  | x0 :: rest, s, hs => by
    rcases hcorr : corrcoef original_signal (reconstruct r x0) with _ | _ | c
    · have hres : attackInner reconstruct original_signal threshold max_attempts
          r (x0 :: rest) s =
          attackInner reconstruct original_signal threshold max_attempts r rest
            (AttackState.mk (s.attempts + 1) s.success s.best_match s.best_params) := by
        simp [attackInner, hcorr]
      rw [hres]
      exact attackInner_params_inv r rest _ hs
    · by_cases hb' : max_attempts ≤ s.attempts + 1
      · have hres : attackInner reconstruct original_signal threshold max_attempts
            r (x0 :: rest) s =
            AttackState.mk (s.attempts + 1) s.success s.best_match s.best_params := by
          simp [attackInner, hcorr, hb']
        rw [hres]
        exact hs
      · have hres : attackInner reconstruct original_signal threshold max_attempts
            r (x0 :: rest) s =
            attackInner reconstruct original_signal threshold max_attempts r rest
              (AttackState.mk (s.attempts + 1) s.success s.best_match s.best_params) := by
          simp [attackInner, hcorr, hb']
        rw [hres]
        exact attackInner_params_inv r rest _ hs
    · have hupd : ∀ p : ℚ × ℚ,
          (AttackState.mk (s.attempts + 1) s.success (|c|)
            (some (r, x0)) : AttackState).best_params = some p →
          ∃ c', corrcoef original_signal (reconstruct p.1 p.2) = CorrOutcome.val c' ∧
            |c'| = (AttackState.mk (s.attempts + 1) s.success (|c|)
              (some (r, x0)) : AttackState).best_match := by
        intro p hp
        have hpe : p = (r, x0) := by
          simpa using hp.symm
        subst hpe
        exact ⟨c, hcorr, rfl⟩
      by_cases hbm : s.best_match < |c|
      · by_cases hth : threshold < |c|
        · have hres : attackInner reconstruct original_signal threshold max_attempts
              r (x0 :: rest) s =
              AttackState.mk (s.attempts + 1) true (|c|) (some (r, x0)) := by
            simp [attackInner, hcorr, hbm, hth]
          rw [hres]
          intro p hp
          have hpe : p = (r, x0) := by simpa using hp.symm
          subst hpe
          exact ⟨c, hcorr, rfl⟩
        · by_cases hb' : max_attempts ≤ s.attempts + 1
          · have hres : attackInner reconstruct original_signal threshold max_attempts
                r (x0 :: rest) s =
                AttackState.mk (s.attempts + 1) s.success (|c|) (some (r, x0)) := by
              simp [attackInner, hcorr, hbm, hth, hb']
            rw [hres]
            exact hupd
          · have hres : attackInner reconstruct original_signal threshold max_attempts
                r (x0 :: rest) s =
                attackInner reconstruct original_signal threshold max_attempts r rest
                  (AttackState.mk (s.attempts + 1) s.success (|c|) (some (r, x0))) := by
              simp [attackInner, hcorr, hbm, hth, hb']
            rw [hres]
            exact attackInner_params_inv r rest _ hupd
      · by_cases hth : threshold < |c|
        · have hres : attackInner reconstruct original_signal threshold max_attempts
              r (x0 :: rest) s =
              AttackState.mk (s.attempts + 1) true s.best_match s.best_params := by
            simp [attackInner, hcorr, hbm, hth]
          rw [hres]
          exact hs
        · by_cases hb' : max_attempts ≤ s.attempts + 1
          · have hres : attackInner reconstruct original_signal threshold max_attempts
                r (x0 :: rest) s =
                AttackState.mk (s.attempts + 1) s.success s.best_match s.best_params := by
              simp [attackInner, hcorr, hbm, hth, hb']
            rw [hres]
            exact hs
          · have hres : attackInner reconstruct original_signal threshold max_attempts
                r (x0 :: rest) s =
                attackInner reconstruct original_signal threshold max_attempts r rest
                  (AttackState.mk (s.attempts + 1) s.success s.best_match
                    s.best_params) := by
              simp [attackInner, hcorr, hbm, hth, hb']
            rw [hres]
            exact attackInner_params_inv r rest _ hs

/-- Full characterization of the outer loop: the evaluated trials form a
prefix of the row-major flattened grid, counted exactly by `attempts`, and
`best_match` is the running max of `abs(corr)` over that prefix. -/
theorem attackOuter_spec (x0_range : List ℚ) :
    ∀ (rs : List ℚ) (s : AttackState),
      ∃ k, k ≤ (flatTrials rs x0_range).length ∧
        (attackOuter reconstruct original_signal threshold max_attempts
          x0_range rs s).attempts = s.attempts + k ∧
        (attackOuter reconstruct original_signal threshold max_attempts
            x0_range rs s).best_match =
          bestFold reconstruct original_signal ((flatTrials rs x0_range).take k)
            s.best_match
  | [], s =>
    ⟨0, by simp [flatTrials], by simp [attackOuter],
      by simp [attackOuter, bestFold, flatTrials]⟩
  | r :: rest, s => by
    obtain ⟨k1, hk1, ha1, hb1, hf1⟩ := attackInner_spec reconstruct original_signal
      threshold max_attempts r x0_range s
    simp only [attackOuter]
    by_cases hstop : (attackInner reconstruct original_signal threshold max_attempts
        r x0_range s).success = true ∨
        max_attempts ≤ (attackInner reconstruct original_signal threshold max_attempts
          r x0_range s).attempts
    · rw [if_pos hstop]
      refine ⟨k1, ?_, ha1, ?_⟩
      · rw [flatTrials, List.flatMap_cons, List.length_append, List.length_map]
        omega
      · rw [hb1, flatTrials, List.flatMap_cons,
          List.take_append_of_le_length (by rw [List.length_map]; exact hk1),
          ← List.map_take]
    · rw [if_neg hstop]
      obtain ⟨k2, hk2, ha2, hb2⟩ := attackOuter_spec x0_range rest
        (attackInner reconstruct original_signal threshold max_attempts r x0_range s)
      refine ⟨x0_range.length + k2, ?_, ?_, ?_⟩
      · rw [flatTrials, List.flatMap_cons, List.length_append, List.length_map]
        rw [flatTrials] at hk2
        omega
      · rw [ha2, ha1, hf1 hstop]
        omega
      · rw [hb2, hb1, hf1 hstop, List.take_length]
        conv_rhs => rw [flatTrials, List.flatMap_cons,
          ← List.length_map x0_range (fun x0 => (r, x0)), List.take_append,
          bestFold_append]
        rw [flatTrials]

/-- Outer-loop version of the success invariant. -/
theorem attackOuter_success_inv (x0_range : List ℚ) :
    ∀ (rs : List ℚ) (s : AttackState),
      (s.success = true → threshold < s.best_match) →
      (attackOuter reconstruct original_signal threshold max_attempts
        x0_range rs s).success = true →
      threshold < (attackOuter reconstruct original_signal threshold max_attempts
        x0_range rs s).best_match
  | [], s, hs => hs
  | r :: rest, s, hs => by
    simp only [attackOuter]
    have hinner := attackInner_success_inv reconstruct original_signal threshold
      max_attempts r x0_range s hs
    split
    · exact hinner
    · exact attackOuter_success_inv x0_range rest _ hinner

/-- Outer-loop version of the params invariant. -/
theorem attackOuter_params_inv (x0_range : List ℚ) :
    ∀ (rs : List ℚ) (s : AttackState),
      (∀ p : ℚ × ℚ, s.best_params = some p →
        ∃ c, corrcoef original_signal (reconstruct p.1 p.2) = CorrOutcome.val c ∧
          |c| = s.best_match) →
      ∀ p : ℚ × ℚ,
        (attackOuter reconstruct original_signal threshold max_attempts
          x0_range rs s).best_params = some p →
        ∃ c, corrcoef original_signal (reconstruct p.1 p.2) = CorrOutcome.val c ∧
          |c| = (attackOuter reconstruct original_signal threshold max_attempts
            x0_range rs s).best_match
  | [], s, hs => hs
  | r :: rest, s, hs => by
    simp only [attackOuter]
    have hinner := attackInner_params_inv reconstruct original_signal threshold
      max_attempts r x0_range s hs
    split
    · exact hinner
    · exact attackOuter_params_inv x0_range rest _ hinner

end AttackSpec

/-- The returned search state of any grid attack satisfies the C10
invariants. -/
theorem attack_invariants (reconstruct : ℚ → ℚ → List ℚ) (orig : List ℚ) (th : ℝ)
    (maxA : ℕ) (xs rs : List ℚ) :
    ((attackOuter reconstruct orig th maxA xs rs ⟨0, false, 0, none⟩).success = true →
        th < (attackOuter reconstruct orig th maxA xs rs ⟨0, false, 0, none⟩).best_match) ∧
      (∀ p : ℚ × ℚ,
        (attackOuter reconstruct orig th maxA xs rs ⟨0, false, 0, none⟩).best_params =
          some p →
        ∃ c, corrcoef orig (reconstruct p.1 p.2) = CorrOutcome.val c ∧
          |c| = (attackOuter reconstruct orig th maxA xs rs
            ⟨0, false, 0, none⟩).best_match) ∧
      (attackOuter reconstruct orig th maxA xs rs ⟨0, false, 0, none⟩).best_match =
        bestFold reconstruct orig ((flatTrials rs xs).take
          (attackOuter reconstruct orig th maxA xs rs ⟨0, false, 0, none⟩).attempts) 0 ∧
      0 ≤ (attackOuter reconstruct orig th maxA xs rs ⟨0, false, 0, none⟩).best_match ∧
      (attackOuter reconstruct orig th maxA xs rs ⟨0, false, 0, none⟩).best_match ≤ 1 := by
  obtain ⟨k, hk, ha, hb⟩ := attackOuter_spec reconstruct orig th maxA xs rs
    ⟨0, false, 0, none⟩
  have hunit := bestFold_in_unit reconstruct orig ((flatTrials rs xs).take k) 0
    (le_refl 0) (by norm_num)
  refine ⟨?_, ?_, ?_, ?_, ?_⟩
  · exact attackOuter_success_inv reconstruct orig th maxA xs rs _ (fun h => by simp at h)
  · exact attackOuter_params_inv reconstruct orig th maxA xs rs _
      (fun p hp => by simp at hp)
  · rw [hb, ha]
    simp
  · rw [hb]
    exact hunit.1
  · rw [hb]
    exact hunit.2

/-- Claim C10 (confirmed): for every attack run of any variant, if `success`
is true then `best_match` strictly exceeds that variant's threshold
(0.7 / 0.8 / 0.85); `best_params`, when set, is the `(r, x0)` pair whose
trial achieved exactly `best_match`; `best_match` equals the running maximum
of `abs(corr)` over the evaluated prefix (the first `attempts` trials in
row-major grid order) of trials with a defined correlation; and `best_match`
always lies in `[0, 1]` (Cauchy-Schwarz). -/
theorem claim_C10_result_invariants (encrypted_signal : List ℕ)
    (original_signal : List ℚ) (signal_range : ℚ × ℚ) (max_attempts : ℕ) :
    (((brute_force_attack_classical encrypted_signal original_signal signal_range
          max_attempts).success = true →
        (7/10 : ℝ) < (brute_force_attack_classical encrypted_signal original_signal
          signal_range max_attempts).best_match) ∧
      (∀ p : ℚ × ℚ,
        (brute_force_attack_classical encrypted_signal original_signal signal_range
          max_attempts).best_params = some p →
        ∃ c, corrcoef original_signal
            (classical_chaotic_decrypt encrypted_signal p.1 p.2 signal_range) =
          CorrOutcome.val c ∧
          |c| = (brute_force_attack_classical encrypted_signal original_signal
            signal_range max_attempts).best_match) ∧
      (brute_force_attack_classical encrypted_signal original_signal signal_range
          max_attempts).best_match =
        bestFold (fun r x0 => classical_chaotic_decrypt encrypted_signal r x0
            signal_range) original_signal
          ((flatTrials (linspace (7/2) 4 20) (linspace (1/10) (9/10) 10)).take
            (brute_force_attack_classical encrypted_signal original_signal signal_range
              max_attempts).attempts) 0 ∧
      0 ≤ (brute_force_attack_classical encrypted_signal original_signal signal_range
        max_attempts).best_match ∧
      (brute_force_attack_classical encrypted_signal original_signal signal_range
        max_attempts).best_match ≤ 1) ∧
    (((brute_force_attack_biometric encrypted_signal original_signal signal_range
          max_attempts).success = true →
        (8/10 : ℝ) < (brute_force_attack_biometric encrypted_signal original_signal
          signal_range max_attempts).best_match) ∧
      (∀ p : ℚ × ℚ,
        (brute_force_attack_biometric encrypted_signal original_signal signal_range
          max_attempts).best_params = some p →
        ∃ c, corrcoef original_signal
            (biometric_trial_decrypt encrypted_signal signal_range p.1 p.2) =
          CorrOutcome.val c ∧
          |c| = (brute_force_attack_biometric encrypted_signal original_signal
            signal_range max_attempts).best_match) ∧
      (brute_force_attack_biometric encrypted_signal original_signal signal_range
          max_attempts).best_match =
        bestFold (fun r x0 => biometric_trial_decrypt encrypted_signal signal_range
            r x0) original_signal
          ((flatTrials (linspace (7/2) 4 25) (linspace (1/10) (9/10) 16)).take
            (brute_force_attack_biometric encrypted_signal original_signal signal_range
              max_attempts).attempts) 0 ∧
      0 ≤ (brute_force_attack_biometric encrypted_signal original_signal signal_range
        max_attempts).best_match ∧
      (brute_force_attack_biometric encrypted_signal original_signal signal_range
        max_attempts).best_match ≤ 1) ∧
    (((brute_force_attack_ml_enhanced encrypted_signal original_signal signal_range
          max_attempts).success = true →
        (85/100 : ℝ) < (brute_force_attack_ml_enhanced encrypted_signal original_signal
          signal_range max_attempts).best_match) ∧
      (∀ p : ℚ × ℚ,
        (brute_force_attack_ml_enhanced encrypted_signal original_signal signal_range
          max_attempts).best_params = some p →
        ∃ c, corrcoef original_signal
            (biometric_trial_decrypt encrypted_signal signal_range p.1 p.2) =
          CorrOutcome.val c ∧
          |c| = (brute_force_attack_ml_enhanced encrypted_signal original_signal
            signal_range max_attempts).best_match) ∧
      (brute_force_attack_ml_enhanced encrypted_signal original_signal signal_range
          max_attempts).best_match =
        bestFold (fun r x0 => biometric_trial_decrypt encrypted_signal signal_range
            r x0) original_signal
          ((flatTrials (linspace (7/2) 4 30) (linspace (1/10) (9/10) 20)).take
            (brute_force_attack_ml_enhanced encrypted_signal original_signal
              signal_range max_attempts).attempts) 0 ∧
      0 ≤ (brute_force_attack_ml_enhanced encrypted_signal original_signal signal_range
        max_attempts).best_match ∧
      (brute_force_attack_ml_enhanced encrypted_signal original_signal signal_range
        max_attempts).best_match ≤ 1) := by
  refine ⟨?_, ?_, ?_⟩
  · simpa only [brute_force_attack_classical, mkAttackResult] using
      attack_invariants
        (fun r x0 => classical_chaotic_decrypt encrypted_signal r x0 signal_range)
        original_signal (7/10 : ℝ) max_attempts (linspace (1/10) (9/10) 10)
        (linspace (7/2) 4 20)
  · simpa only [brute_force_attack_biometric, mkAttackResult] using
      attack_invariants
        (fun r x0 => biometric_trial_decrypt encrypted_signal signal_range r x0)
        original_signal (8/10 : ℝ) max_attempts (linspace (1/10) (9/10) 16)
        (linspace (7/2) 4 25)
  · simpa only [brute_force_attack_ml_enhanced, mkAttackResult] using
      attack_invariants
        (fun r x0 => biometric_trial_decrypt encrypted_signal signal_range r x0)
        original_signal (85/100 : ℝ) max_attempts (linspace (1/10) (9/10) 20)
        (linspace (7/2) 4 30)

/-- Witness for C10 at a concrete attack run. -/
theorem claim_C10_witness :
    0 ≤ (brute_force_attack_classical [0, 0] [1, 2] (0, 1) 3).best_match ∧
      (brute_force_attack_classical [0, 0] [1, 2] (0, 1) 3).best_match ≤ 1 :=
  ⟨(claim_C10_result_invariants [0, 0] [1, 2] (0, 1) 3).1.2.2.2.1,
    (claim_C10_result_invariants [0, 0] [1, 2] (0, 1) 3).1.2.2.2.2⟩

/-- Witness for C1 at `signal = [1, 2]`, `r = 4`, `x0 = 1/2`. -/
theorem claim_C1_witness :
    ([1, 2] : List ℚ) ≠ [] ∧ (0 : ℚ) < 4 ∧ (4 : ℚ) ≤ 4 ∧ (0 : ℚ) < 1/2 ∧
      (1/2 : ℚ) < 1 ∧
      ∀ i < ([1, 2] : List ℚ).length,
        |(classical_chaotic_decrypt (classical_chaotic_encrypt [1, 2] 4 (1/2)).1 4 (1/2)
            (classical_chaotic_encrypt [1, 2] 4 (1/2)).2).getD i 0 -
          ([1, 2] : List ℚ).getD i 0| ≤ (listMax [1, 2] - listMin [1, 2]) / 255 :=
  ⟨by simp, by norm_num, le_refl _, by norm_num, by norm_num,
    (claim_C1_roundtrip [1, 2] 4 (1/2) (by simp) (by norm_num) (le_refl _)
      (by norm_num) (by norm_num)).1⟩

end ECG
